import Mathlib

/-!
Verification of the XCC (exact cover with colors, Algorithm C 7.2.2.1)
dancing-links engine.  The definitions below are a shallow embedding of the
Go source: the working arrays become total functions over Nat, the labeled
goto driver becomes a small-step machine over an explicit phase, and every
source loop is given explicit fuel (returning none when the fuel runs out,
so that a diverging loop never silently "succeeds").
-/

namespace XCCV

/-- Pointwise update of a function, used for every array write. -/
def updf {α : Type} (f : Nat → α) (k : Nat) (v : α) : Nat → α :=
  fun j => if j = k then v else f j

@[simp] theorem updf_same {α : Type} (f : Nat → α) (k : Nat) (v : α) :
    updf f k v k = v := by simp [updf]

@[simp] theorem updf_ne {α : Type} (f : Nat → α) (k j : Nat) (v : α)
    (h : j ≠ k) : updf f k v j = f j := by simp [updf, h]

/-- Runtime options of the search, translated from struct XCCOptions. -/
structure XCCOptions where
  minimax : Bool
  minimaxSingle : Bool
  exercise83 : Bool
deriving Repr, DecidableEq

/-- Modelled from the spec: the statistics sink structure
(ExactCoverStats) is declared outside the given sources; only its fields
used by the engine are modelled, following spec section 6: solutions,
nodes, levels, max_level, theta, delta, debug, progress, verbosity. -/
structure ExactCoverStats where
  Solutions : Nat
  Nodes : Nat
  Levels : List Nat
  MaxLevel : Int
  Theta : Nat
  Delta : Nat
  Debug : Bool
  Progress : Bool
  Verbosity : Nat
deriving Repr, DecidableEq

/-- The working tables of the engine.  llen shares storage with the first
n+1 entries of top, exactly as in the source (llen = top[0 : n+1]), so
llen reads and writes go through the top field here. -/
structure Tbl where
  n1 : Nat
  n2 : Nat
  n : Nat
  size : Nat
  name : List String
  llink : Nat → Nat
  rlink : Nat → Nat
  top : Nat → Int
  ulink : Nat → Nat
  dlink : Nat → Nat
  color : Nat → Int
  colors : List String
  level : Nat
  state : List Nat
  cutoff : Nat

/-- Splice a node out of its vertical list:
dlink[u], ulink[d] = d, u and llen[top[q]] decremented (hide's body). -/
def spliceOut (t : Tbl) (q : Nat) : Tbl :=
  let u := t.ulink q
  let d := t.dlink q
  let x := (t.top q).toNat
  { t with dlink := updf t.dlink u d,
           ulink := updf t.ulink d u,
           top := updf t.top x (t.top x - 1) }

/-- Splice a node back into its vertical list:
dlink[u], ulink[d] = q, q and llen[top[q]] incremented (unhide's body,
with u and d supplied by the caller). -/
def spliceInUD (t : Tbl) (q u d : Nat) : Tbl :=
  let x := (t.top q).toNat
  { t with dlink := updf t.dlink u q,
           ulink := updf t.ulink d q,
           top := updf t.top x (t.top x + 1) }

/-- One iteration of hide's walk at position q: returns the new tables and
the next position. -/
def hideStep (t : Tbl) (q : Nat) : Tbl × Nat :=
  let x := t.top q
  let u := t.ulink q
  if x ≤ 0 then (t, u)
  else
    (if 0 ≤ t.color q then spliceOut t q else t, q + 1)

/-- hide(p): walk right through the option of p, wrapping at spacers,
splicing every unabsorbed node out of its item list. -/
def hideAux (p : Nat) : Nat → Tbl → Nat → Option Tbl
  | 0, _, _ => none
  | fuel + 1, t, q =>
    if q = p then some t
    else
      let s := hideStep t q
      hideAux p fuel s.1 s.2

def hide (fuel : Nat) (t : Tbl) (p : Nat) : Option Tbl :=
  hideAux p fuel t (p + 1)

/-- One iteration of unhide's walk at position q (mm is the minimax flag);
under minimax a down link past the cutoff is retargeted to the header
before the node is respliced. -/
def unhideStep (mm : Bool) (t : Tbl) (q : Nat) : Tbl × Nat :=
  let x := t.top q
  let u := t.ulink q
  let d := t.dlink q
  if x ≤ 0 then (t, d)
  else
    let td :=
      if mm ∧ t.cutoff < d then
        ({ t with dlink := updf t.dlink q x.toNat }, x.toNat)
      else (t, d)
    let t1 := td.1
    let d1 := td.2
    (if 0 ≤ t1.color q then spliceInUD t1 q u d1 else t1, q - 1)

/-- unhide(p): the right-to-left reverse of hide(p). -/
def unhideAux (mm : Bool) (p : Nat) : Nat → Tbl → Nat → Option Tbl
  | 0, _, _ => none
  | fuel + 1, t, q =>
    if q = p then some t
    else
      let s := unhideStep mm t q
      unhideAux mm p fuel s.1 s.2

def unhide (fuel : Nat) (mm : Bool) (t : Tbl) (p : Nat) : Option Tbl :=
  unhideAux mm p fuel t (p - 1)

/-- Splice an item header out of its horizontal list (cover's last step). -/
def hdrOut (t : Tbl) (i : Nat) : Tbl :=
  let l := t.llink i
  let r := t.rlink i
  { t with rlink := updf t.rlink l r, llink := updf t.llink r l }

/-- Splice an item header back into its horizontal list. -/
def hdrIn (t : Tbl) (i : Nat) : Tbl :=
  let l := t.llink i
  let r := t.rlink i
  { t with rlink := updf t.rlink l i, llink := updf t.llink r i }

/-- cover's loop over the vertical list of i, hiding each option. -/
def coverAux (fuel : Nat) (i : Nat) : Nat → Tbl → Nat → Option Tbl
  | 0, _, _ => none
  | g + 1, t, p =>
    if p = i then some t
    else do
      let t1 ← hide fuel t p
      coverAux fuel i g t1 (t1.dlink p)

/-- cover(i): hide all options of i, then unlink the header. -/
def cover (fuel : Nat) (t : Tbl) (i : Nat) : Option Tbl := do
  let t1 ← coverAux fuel i fuel t (t.dlink i)
  some (hdrOut t1 i)

/-- The minimax pre-pass of uncover: drop every node past the cutoff from
i's vertical list, decrementing llen[i]. -/
def uncoverPre (i : Nat) : Nat → Tbl → Nat → Option Tbl
  | 0, _, _ => none
  | g + 1, t, q =>
    if q = i then some t
    else
      let t1 :=
        if t.cutoff < q then
          { t with dlink := updf t.dlink (t.ulink q) (t.dlink q),
                   ulink := updf t.ulink (t.dlink q) (t.ulink q),
                   top := updf t.top i (t.top i - 1) }
        else t
      uncoverPre i g t1 (t1.dlink q)

/-- uncover's loop over the vertical list of i (bottom-up), unhiding. -/
def uncoverAux (fuel : Nat) (mm : Bool) (i : Nat) : Nat → Tbl → Nat → Option Tbl
  | 0, _, _ => none
  | g + 1, t, p =>
    if p = i then some t
    else do
      let t1 ← unhide fuel mm t p
      uncoverAux fuel mm i g t1 (t1.ulink p)

/-- uncover(i): minimax pre-pass, relink the header, then unhide each
option bottom-up. -/
def uncover (fuel : Nat) (mm : Bool) (t : Tbl) (i : Nat) : Option Tbl := do
  let t0 ← if mm then uncoverPre i fuel t (t.dlink i) else some t
  let t1 := hdrIn t0 i
  uncoverAux fuel mm i fuel t1 (t1.ulink i)

/-- purify's loop: mark same-colored nodes absorbed, hide the rest. -/
def purifyAux (fuel : Nat) (c : Int) (i : Nat) : Nat → Tbl → Nat → Option Tbl
  | 0, _, _ => none
  | g + 1, t, q =>
    if q = i then some t
    else
      if t.color q = c then
        let t1 := { t with color := updf t.color q (-1) }
        purifyAux fuel c i g t1 (t1.dlink q)
      else do
        let t1 ← hide fuel t q
        purifyAux fuel c i g t1 (t1.dlink q)

/-- purify(p): commit the color of node p on its secondary item. -/
def purify (fuel : Nat) (t : Tbl) (p : Nat) : Option Tbl :=
  let c := t.color p
  let i := (t.top p).toNat
  let t1 := { t with color := updf t.color i c }
  purifyAux fuel c i fuel t1 (t1.dlink i)

/-- unpurify's loop body, including the source's minimax relink of a node
past the cutoff after the walk advances. -/
def unpurifyAux (fuel : Nat) (mm : Bool) (c : Int) (i : Nat) :
    Nat → Tbl → Nat → Option Tbl
  | 0, _, _ => none
  | g + 1, t, q =>
    if q = i then some t
    else do
      let t1 ←
        if t.color q < 0 then some { t with color := updf t.color q c }
        else unhide fuel mm t q
      let q1 := t1.ulink q
      let t2 :=
        if mm ∧ t1.cutoff < q1 then
          { t1 with dlink := updf t1.dlink q1 i, ulink := updf t1.ulink i q1 }
        else t1
      unpurifyAux fuel mm c i g t2 q1

/-- unpurify(p): the reverse of purify(p). -/
def unpurify (fuel : Nat) (mm : Bool) (t : Tbl) (p : Nat) : Option Tbl :=
  let c := t.color p
  let i := (t.top p).toNat
  unpurifyAux fuel mm c i fuel t (t.ulink i)

/-- commit(p, j): cover for an uncolored node, purify for a colored one. -/
def commit (fuel : Nat) (t : Tbl) (p j : Nat) : Option Tbl := do
  let t1 ← if t.color p = 0 then cover fuel t j else some t
  if 0 < t1.color p then purify fuel t1 p else some t1

/-- uncommit(p, j): the symmetric inverse dispatch. -/
def uncommit (fuel : Nat) (mm : Bool) (t : Tbl) (p j : Nat) : Option Tbl := do
  let t1 ← if t.color p = 0 then uncover fuel mm t j else some t
  if 0 < t1.color p then unpurify fuel mm t1 p else some t1

/-- mrv's scan over the active primary items. -/
def mrvAux (t : Tbl) : Nat → Nat → Int → Nat → Option Nat
  | 0, _, _, _ => none
  | fuel + 1, p, theta, i =>
    if p = 0 then some i
    else
      let lam := t.top p
      if lam < theta ∨ theta = -1 then
        if lam = 0 then some p
        else mrvAux t fuel (t.rlink p) lam p
      else mrvAux t fuel (t.rlink p) theta i

/-- mrv: minimum remaining values choice of the next item. -/
def mrv (fuel : Nat) (t : Tbl) : Option Nat :=
  mrvAux t fuel (t.rlink 0) (-1) 0

end XCCV

namespace XCCV

/-- Characters before the first colon of a token. -/
def preColon : List Char → List Char
  | [] => []
  | c :: cs => if c = ':' then [] else c :: preColon cs

/-- Characters after the first colon of a token, when a colon is present. -/
def postColonQ : List Char → Option (List Char)
  | [] => none
  | c :: cs => if c = ':' then some cs else postColonQ cs

/-- Strip an optional ":color" suffix from a token (first colon, as in
strings.Index). -/
def stripColon (tok : String) : String :=
  String.mk (preColon tok.data)

/-- Validation errors, one per error site of validate. -/
inductive VErr
  | emptyItems
  | dupItem (s : String)
  | dupSecondary (s : String)
  | unknownToken (opt : List String) (tok : String)
deriving Repr, DecidableEq

/-- Duplicate scan over the primary items, seen names accumulated. -/
def checkDups : List String → List String → Option VErr
  | _, [] => none
  | seen, x :: xs =>
    if x ∈ seen then some (.dupItem x) else checkDups (x :: seen) xs

/-- Secondary scan: a secondary name may collide with a primary name or an
earlier secondary name. -/
def checkSec (mItems : List String) : List String → List String → Option VErr
  | _, [] => none
  | seen, x :: xs =>
    if x ∈ mItems ∨ x ∈ seen then some (.dupSecondary x)
    else checkSec mItems (x :: seen) xs

/-- Token scan of one option against the complete name sets. -/
def checkToks (mI mS : List String) (opt : List String) :
    List String → Option VErr
  | [] => none
  | tok :: toks =>
    let it := stripColon tok
    if it ∈ mI ∨ it ∈ mS then checkToks mI mS opt toks
    else some (.unknownToken opt tok)

def checkOptions (mI mS : List String) : List (List String) → Option VErr
  | [] => none
  | opt :: rest =>
    match checkToks mI mS opt opt with
    | some e => some e
    | none => checkOptions mI mS rest

/-- validate: the input checks performed before any table is built. -/
def validate (items : List String) (options : List (List String))
    (secondary : List String) : Option VErr :=
  if items = [] then some .emptyItems
  else
    match checkDups [] items with
    | some e => some e
    | none =>
      match checkSec items [] secondary with
      | some e => some e
      | none => checkOptions items secondary options

/-- The option-insertion accumulator of initialize. -/
structure Build where
  x : Nat
  spacer : Int
  spacerX : Nat
  top : Nat → Int
  ulink : Nat → Nat
  dlink : Nat → Nat
  color : Nat → Int
  colors : List String

/-- Scan of the color table from index 1; result equals the table length
when the name is new (the source's linear scan). -/
def colorIdxAux (cname : String) : List String → Nat → Nat
  | [], k => k
  | c :: cs, k => if c = cname then k else colorIdxAux cname cs (k + 1)

def colorIdx (colors : List String) (cname : String) : Nat :=
  colorIdxAux cname (colors.drop 1) 1

/-- Walk to the tail of item i's vertical list (while dlink[tail] != i). -/
def tailWalk (dl : Nat → Nat) (head : Nat) : Nat → Nat → Nat
  | 0, tail => tail
  | f + 1, tail => if dl tail = head then tail else tailWalk dl head f (dl tail)

/-- Insert one option token: extract the color, find the item, append the
node at the tail of the item's vertical list. -/
def insertTok (name : List String) (b : Build) (tok : String) : Build :=
  let x := b.x + 1
  let item := stripColon tok
  let cid :=
    match postColonQ tok.data with
    | none => (0, b.colors)
    | some suf =>
      let cname := String.mk suf
      let k := colorIdx b.colors cname
      if k = b.colors.length then (k, b.colors ++ [cname]) else (k, b.colors)
  let itemColor : Int := cid.1
  let colors := cid.2
  let i := name.findIdx (· == item)
  let top := updf b.top x i
  let color := updf b.color x itemColor
  let top := updf top i (top i + 1)
  let tail := tailWalk b.dlink i (x + 2) i
  let dlink := updf b.dlink tail x
  let ulink := updf b.ulink x tail
  let ulink := updf ulink i x
  let dlink := updf dlink x i
  { x := x, spacer := b.spacer, spacerX := b.spacerX, top := top,
    ulink := ulink, dlink := dlink, color := color, colors := colors }

/-- Insert one option followed by its trailing spacer. -/
def insertOpt (name : List String) (b : Build) (opt : List String) : Build :=
  let b1 := opt.foldl (insertTok name) b
  let dlink := updf b1.dlink b1.spacerX b1.x
  let x := b1.x + 1
  let ulink := updf b1.ulink x (b1.spacerX + 1)
  let spacer := b1.spacer - 1
  let top := updf b1.top x spacer
  { x := x, spacer := spacer, spacerX := x, top := top, ulink := ulink,
    dlink := dlink, color := b1.color, colors := b1.colors }

/-- The name array of the tables: index 0 and n+1 stay empty, 1..n hold
the primary then the secondary names. -/
def mkName (items : List String) (secondary : List String) : List String :=
  "" :: (items ++ secondary) ++ [""]

/-- The initial option-insertion accumulator: empty vertical loops on the
headers, the first spacer at n+1. -/
def initBuild (n : Nat) : Build :=
  let ud :=
    (List.range n).foldl
      (fun (ud : (Nat → Nat) × (Nat → Nat)) j =>
        let i := j + 1
        (updf ud.1 i i, updf ud.2 i i))
      (fun _ => 0, fun _ => 0)
  { x := n + 1, spacer := 0, spacerX := n + 1,
    top := updf (fun _ => 0) (n + 1) 0,
    ulink := ud.1, dlink := ud.2, color := fun _ => 0, colors := [""] }

/-- initialize: build the item tables and the option tables.  (The source
calls this "initialize"; renamed here only because that word is reserved.) -/
def initTbl (items : List String) (secondary : List String)
    (options : List (List String)) : Tbl :=
  let n1 := items.length
  let n2 := secondary.length
  let n := n1 + n2
  let name : List String := mkName items secondary
  let lr :=
    (List.range n).foldl
      (fun (lr : (Nat → Nat) × (Nat → Nat)) j =>
        let i := j + 1
        (updf lr.1 i (i - 1), updf lr.2 (i - 1) i))
      (fun _ => 0, fun _ => 0)
  let llink := updf lr.1 (n + 1) n
  let rlink := updf lr.2 n (n + 1)
  let llink := updf llink (n1 + 1) (n + 1)
  let rlink := updf rlink (n + 1) (n1 + 1)
  let llink := updf llink 0 n1
  let rlink := updf rlink n1 0
  let nOptions := options.length
  let nOptionItems := (options.map List.length).sum
  let size := n + 1 + nOptions + 1 + nOptionItems
  let b := options.foldl (insertOpt name) (initBuild n)
  { n1 := n1, n2 := n2, n := n, size := size, name := name,
    llink := llink, rlink := rlink, top := b.top, ulink := b.ulink,
    dlink := b.dlink, color := b.color, colors := b.colors,
    level := 0, state := List.replicate nOptions 0, cutoff := 32767 }

/-- The stats preparation done inside initialize: Theta, MaxLevel and the
Levels histogram are reset or padded; Solutions and Nodes are untouched. -/
def initStats (st : ExactCoverStats) (n : Nat) : ExactCoverStats :=
  { st with
    Theta := st.Delta
    MaxLevel := -1
    Levels :=
      if st.Levels = [] then List.replicate n 0
      else st.Levels ++ List.replicate (n - st.Levels.length) 0 }

end XCCV

namespace XCCV

/-- Walk back to the first node of the option containing p
(while top[p-1] > 0 decrement p). -/
def backWalk (t : Tbl) : Nat → Nat → Option Nat
  | 0, _ => none
  | f + 1, p => if 0 < t.top (p - 1) then backWalk t f (p - 1) else some p

/-- Walk forward over the option from its first node, collecting item
names and (secondary name, color name) pairs for colored nodes. -/
def fwdCollect (t : Tbl) : Nat → Nat → Option (List String × List (String × String))
  | 0, _ => none
  | f + 1, q =>
    if 0 < t.top q then do
      let nm := t.name.getD (t.top q).toNat ""
      let rest ← fwdCollect t f (q + 1)
      let pairs :=
        if 0 < t.color q then
          (nm, t.colors.getD (t.color q).toNat "") :: rest.2
        else rest.2
      some (nm :: rest.1, pairs)
    else some ([], [])

/-- Map insertion with overwrite (sitemColor's map semantics). -/
def aset (m : List (String × String)) (k v : String) : List (String × String) :=
  (k, v) :: m.filter (fun kv => kv.1 ≠ k)

/-- First pass of the solution reconstruction: option name lists in stack
order, the secondary-color map, pMax and lMax. -/
def lvisitPass1 (t : Tbl) (fuel : Nat) :
    Nat → List Nat → List (List String) → List (String × String) →
    Nat → Nat → Option (List (List String) × List (String × String) × Nat × Nat)
  | _, [], acc, cmap, pMax, lMax => some (acc.reverse, cmap, pMax, lMax)
  | idx, p :: ps, acc, cmap, pMax, lMax => do
    let pl := if p > pMax then (p, idx) else (pMax, lMax)
    let p0 ← backWalk t fuel p
    let nc ← fwdCollect t fuel p0
    let cmap := nc.2.foldl (fun m kv => aset m kv.1 kv.2) cmap
    lvisitPass1 t fuel (idx + 1) ps (nc.1 :: acc) cmap pl.1 pl.2

/-- Second pass: append ":color" to every occurrence of a secondary item
that resolved to a color. -/
def addColors (m : List (String × String)) (opts : List (List String)) :
    List (List String) :=
  opts.map (·.map (fun item =>
    match m.lookup item with
    | some c => item ++ ":" ++ c
    | none => item))

/-- Walk from pMax to the adjacent spacer: down for minimax-single, up
otherwise. -/
def ppWalk (t : Tbl) (single : Bool) : Nat → Nat → Option Nat
  | 0, _ => none
  | f + 1, pp =>
    if 0 < t.top pp then ppWalk t single f (if single then pp - 1 else pp + 1)
    else some pp

/-- The per-stack-entry pruning walk of lvisit: from q = p toward the item
header x, unlink every node past the (already updated) cutoff,
decrementing llen[x]. -/
def pruneOne (x : Nat) : Nat → Tbl → Nat → Option Tbl
  | 0, _, _ => none
  | f + 1, t, q =>
    if q = x then some t
    else
      let t1 :=
        if t.cutoff < q then
          { t with dlink := updf t.dlink (t.ulink q) (t.dlink q),
                   ulink := updf t.ulink (t.dlink q) (t.ulink q),
                   top := updf t.top x (t.top x - 1) }
        else t
      pruneOne x f t1 (t1.dlink q)

/-- Prune every option currently on the state stack. -/
def pruneAll (fuel : Nat) : List Nat → Tbl → Option Tbl
  | [], t => some t
  | p :: ps, t => do
    let x := (t.top p).toNat
    let t1 ← pruneOne x fuel t p
    pruneAll fuel ps t1

/-- The forced unwind of minimax-single: cnt times, uncover the item
branched on at the topmost remaining level and decrement level. -/
def unwindAux (fuel : Nat) (mm : Bool) : Nat → Tbl → Option Tbl
  | 0, t => some t
  | cnt + 1, t => do
    let k := t.level - 1
    let i := (t.top (t.state.getD k 0)).toNat
    let t1 ← uncover fuel mm t i
    unwindAux fuel mm cnt { t1 with level := t1.level - 1 }

/-- The minimax tail of lvisit: candidate cutoff from the spacer adjacent
to the maximum option, conditional update with pruning, and the forced
unwind for minimax-single. -/
def lvisitCut (fuel : Nat) (cfg : XCCOptions) (t : Tbl) (pMax lMax : Nat) :
    Option Tbl :=
  if cfg.minimax then do
    let pp ← ppWalk t cfg.minimaxSingle fuel pMax
    if pp ≠ t.cutoff then
      let t1 := { t with cutoff := pp }
      let t2 ← pruneAll fuel (t1.state.take t1.level) t1
      if cfg.minimaxSingle then unwindAux fuel cfg.minimax (t2.level - lMax) t2
      else some t2
    else some t
  else some t

/-- lvisit: reconstruct the solution handed to the visitor and apply the
minimax bookkeeping. -/
def lvisit (fuel : Nat) (cfg : XCCOptions) (t : Tbl) :
    Option (List (List String) × Tbl) := do
  let r ← lvisitPass1 t fuel 0 (t.state.take t.level) [] [] 0 0
  let sol := addColors r.2.1 r.1
  let t1 ← lvisitCut fuel cfg t r.2.2.1 r.2.2.2
  some (sol, t1)

/-- Driver phases: the labels C2..C8 of the goto machine (C3 and C4 are
straight-line code inside the C2 block). -/
inductive Phase
  | c2 | c5 | c6 | c7 | c8
deriving Repr, DecidableEq

/-- The driver state: tables, phase, the branched item i, optional stats,
and the record of all solutions handed to the visitor. -/
structure Mach where
  t : Tbl
  phase : Phase
  i : Nat
  stats : Option ExactCoverStats
  visits : List (List (List String))

inductive StepOut
  | cont (m : Mach)
  | done (m : Mach)
  | halted (m : Mach)

/-- The C2 stats bookkeeping: Levels histogram (a panic when level is out
of range, modelled as none), node count, and the progress fields. -/
def c2Stats (level : Nat) (st : ExactCoverStats) : Option ExactCoverStats :=
  if level < st.Levels.length then
    let st := { st with Levels := st.Levels.set level (st.Levels.getD level 0 + 1),
                        Nodes := st.Nodes + 1 }
    if st.Progress then
      let st := if (level : Int) > st.MaxLevel then { st with MaxLevel := (level : Int) } else st
      some (if st.Nodes ≥ st.Theta then { st with Theta := st.Theta + st.Delta } else st)
    else some st
  else none

/-- The commit walk of C5: right through the option from state[level]+1,
wrapping at spacers, committing each item. -/
def commitWalk (fuel : Nat) (start : Nat) : Nat → Tbl → Nat → Option Tbl
  | 0, _, _ => none
  | f + 1, t, p =>
    if p = start then some t
    else
      let j := t.top p
      if j ≤ 0 then commitWalk fuel start f t (t.ulink p)
      else do
        let t1 ← commit fuel t p j.toNat
        commitWalk fuel start f t1 (p + 1)

/-- The uncommit walk of C6: left through the option from state[level]-1,
wrapping at spacers, uncommitting each item. -/
def uncommitWalk (fuel : Nat) (mm : Bool) (start : Nat) :
    Nat → Tbl → Nat → Option Tbl
  | 0, _, _ => none
  | f + 1, t, p =>
    if p = start then some t
    else
      let j := t.top p
      if j ≤ 0 then uncommitWalk fuel mm start f t (t.dlink p)
      else do
        let t1 ← uncommit fuel mm t p j.toNat
        uncommitWalk fuel mm start f t1 (p - 1)

/-- The Exercise 83 block of C6 (active only under that flag at level 0):
walk right to the trailing spacer of the first covered option; if its last
item is an uncolored secondary item, cover it permanently. -/
def ex83Walk (t : Tbl) : Nat → Nat → Option Nat
  | 0, _ => none
  | f + 1, x => if 0 < t.top x then ex83Walk t f (x + 1) else some x

def ex83Block (fuel : Nat) (t : Tbl) : Option Tbl := do
  let x0 := t.state.getD 0 0
  let x ← ex83Walk t fuel x0
  let j := t.top (x - 1)
  if j > (t.n1 : Int) ∧ t.color (x - 1) = 0 then cover fuel t j.toNat
  else some t

/-- One step of the driver from the current phase (the body of one labeled
block of the goto loop). -/
def step (fuel : Nat) (cfg : XCCOptions) (vis : List (List String) → Bool)
    (m : Mach) : Option StepOut :=
  match m.phase with
  | .c2 => do
    let m ←
      match m.stats with
      | none => some m
      | some st => do
        let st ← c2Stats m.t.level st
        some { m with stats := some st }
    if m.t.rlink 0 = 0 then do
      let m :=
        match m.stats with
        | none => m
        | some st => { m with stats := some { st with Solutions := st.Solutions + 1 } }
      let r ← lvisit fuel cfg m.t
      let m := { m with t := r.2, visits := m.visits ++ [r.1] }
      if vis r.1 then some (.cont { m with phase := .c8 })
      else some (.halted m)
    else do
      let i ← mrv fuel m.t
      let t1 ← cover fuel m.t i
      if m.t.level < t1.state.length then
        some (.cont { m with
          t := { t1 with state := t1.state.set t1.level (t1.dlink i) },
          i := i, phase := .c5 })
      else none
  | .c5 =>
    let x := m.t.state.getD m.t.level 0
    if x = m.i then some (.cont { m with phase := .c7 })
    else do
      let t1 ← commitWalk fuel x fuel m.t (x + 1)
      some (.cont { m with t := { t1 with level := t1.level + 1 }, phase := .c2 })
  | .c6 => do
    let m :=
      match m.stats with
      | none => m
      | some st => { m with stats := some { st with Nodes := st.Nodes + 1 } }
    let x := m.t.state.getD m.t.level 0
    let t1 ← uncommitWalk fuel cfg.minimax x fuel m.t (x - 1)
    let t2 ←
      if cfg.exercise83 ∧ t1.level = 0 then ex83Block fuel t1
      else some t1
    let i := (t2.top (t2.state.getD t2.level 0)).toNat
    if t2.level < t2.state.length then
      some (.cont { m with
        t := { t2 with
          state := t2.state.set t2.level (t2.dlink (t2.state.getD t2.level 0)) },
        i := i, phase := .c5 })
    else none
  | .c7 => do
    let t1 ← uncover fuel cfg.minimax m.t m.i
    some (.cont { m with t := t1, phase := .c8 })
  | .c8 =>
    if m.t.level = 0 then some (.done m)
    else some (.cont { m with t := { m.t with level := m.t.level - 1 }, phase := .c6 })

inductive Outcome
  | done | halted
deriving Repr, DecidableEq

/-- Run the driver to completion (fuel-bounded). -/
def runM (fuel : Nat) (cfg : XCCOptions) (vis : List (List String) → Bool) :
    Nat → Mach → Option (Mach × Outcome)
  | 0, _ => none
  | k + 1, m =>
    match step fuel cfg vis m with
    | none => none
    | some (.cont m') => runM fuel cfg vis k m'
    | some (.done m') => some (m', .done)
    | some (.halted m') => some (m', .halted)

/-- Take exactly k continuing steps (for naming intermediate reachable
machine states). -/
def stepN (fuel : Nat) (cfg : XCCOptions) (vis : List (List String) → Bool) :
    Nat → Mach → Option Mach
  | 0, m => some m
  | k + 1, m =>
    match step fuel cfg vis m with
    | some (.cont m') => stepN fuel cfg vis k m'
    | _ => none

inductive XCCResult
  | err (e : VErr)
  | ok (oc : Outcome) (m : Mach)

def XCCResult.visitsOf : XCCResult → List (List (List String))
  | .err _ => []
  | .ok _ m => m.visits

def XCCResult.isErr : XCCResult → Bool
  | .err _ => true
  | .ok _ _ => false

def XCCResult.isDone : XCCResult → Bool
  | .err _ => false
  | .ok .done _ => true
  | .ok .halted _ => false

def XCCResult.statsOf : XCCResult → Option ExactCoverStats
  | .err _ => none
  | .ok _ m => m.stats

/-- The initial machine for a validated input. -/
def mkMach (items : List String) (secondary : List String)
    (options : List (List String)) (stats : Option ExactCoverStats) : Mach :=
  let t := initTbl items secondary options
  { t := t, phase := .c2, i := 0,
    stats := stats.map (fun s => initStats s t.n), visits := [] }

/-- XCC: validate, build the tables, and run the search.  A nil options
pointer means all-default XCCOptions.  Returns none only when the fuel
bound is exhausted. -/
def XCC (fuel : Nat) (items : List String) (options : List (List String))
    (secondary : List String) (stats : Option ExactCoverStats)
    (xccOptions : Option XCCOptions) (vis : List (List String) → Bool) :
    Option XCCResult :=
  let cfg := xccOptions.getD ⟨false, false, false⟩
  match validate items options secondary with
  | some e => some (.err e)
  | none =>
    (runM fuel cfg vis fuel (mkMach items secondary options stats)).map
      (fun r => .ok r.2 r.1)

end XCCV

namespace XCCV

/-! ## Concrete instances used by the claims -/

/-- The toy XCC example 7.2.2.1-49 (xccItems of the test file). -/
def toyItems : List String := ["p", "q", "r"]

def toySecondary : List String := ["x", "y"]

def toyOptions : List (List String) :=
  [["p", "q", "x", "y:A"], ["p", "r", "x:A", "y"], ["p", "x:B"],
   ["q", "x:A"], ["r", "y:B"]]

/-- The always-continue visitor. -/
def visTrue : List (List String) → Bool := fun _ => true

def cfg0 : XCCOptions := ⟨false, false, false⟩

def cfgMM : XCCOptions := ⟨true, false, false⟩

def cfgMS : XCCOptions := ⟨true, true, false⟩

def toyT0 : Tbl := initTbl toyItems toySecondary toyOptions

def toyRun : Option XCCResult :=
  XCC 300 toyItems toyOptions toySecondary none none visTrue

def toyM0 : Mach := mkMach toyItems toySecondary toyOptions none

/-- Spec scenario 3: primary a, secondary x y z, minimax on. -/
def s3I : List String := ["a"]

def s3S : List String := ["x", "y", "z"]

def s3O : List (List String) := [["a", "x"], ["a", "y"], ["a", "z"]]

def s3Run : Option XCCResult := XCC 300 s3I s3O s3S none (some cfgMM) visTrue

/-- Spec scenario 5: primary a b, secondary x y z, minimax-single. -/
def s5I : List String := ["a", "b"]

def s5S : List String := ["x", "y", "z"]

def s5O : List (List String) :=
  [["a", "x"], ["a", "y"], ["a", "z"], ["b", "y"]]

def s5M0 : Mach := mkMach s5I s5S s5O none

/-- The reachable machine of scenario 5 after 4 driver transitions: at C2
with the solution complete and a cutoff-updating visit imminent. -/
def s5S4 : Option Mach := stepN 300 cfgMS visTrue 4 s5M0

/-- The minimax test case of the repository's own test data. -/
def bigI : List String := ["a", "b", "c", "d"]

def bigS : List String := ["x", "y", "z"]

def bigO : List (List String) :=
  [["a", "b", "y:1"], ["b", "c", "y"], ["b", "c", "x"], ["a", "b", "x"],
   ["a"], ["b"], ["c", "y:2"], ["c", "y:3"], ["c", "d", "z"],
   ["d", "y:3"], ["c", "d", "y"], ["c", "d", "x"]]

def bigM0 : Mach := mkMach bigI bigS bigO none

/-- The reachable machine of the minimax test case after 5 driver
transitions (at C8, right after the first visited solution lowered the
cutoff to 38). -/
def bigS5 : Option Mach := stepN 400 cfgMM visTrue 5 bigM0

/-- Bounded membership test for q in the vertical list of header i,
walking dlink from the header. -/
def inVListAux (t : Tbl) (i q : Nat) : Nat → Nat → Bool
  | 0, _ => false
  | f + 1, cur =>
    if cur = i then false
    else if cur = q then true
    else inVListAux t i q f (t.dlink cur)

def inVList (fuel : Nat) (t : Tbl) (i q : Nat) : Bool :=
  inVListAux t i q fuel (t.dlink i)

/-- Bounded membership test in a horizontal list with sentinel stop,
walking rlink. -/
def inHListAux (t : Tbl) (stop i : Nat) : Nat → Nat → Bool
  | 0, _ => false
  | f + 1, cur =>
    if cur = stop then false
    else if cur = i then true
    else inHListAux t stop i f (t.rlink cur)

/-- Is i on the active secondary item list (sentinel n+1)? -/
def activeSec (fuel : Nat) (t : Tbl) (i : Nat) : Bool :=
  inHListAux t (t.n + 1) i fuel (t.rlink (t.n + 1))

/-- Is i on the active primary item list (sentinel 0)? -/
def activePrim (fuel : Nat) (t : Tbl) (i : Nat) : Bool :=
  inHListAux t 0 i fuel (t.rlink 0)

/-! ## C1 -/

/-- Claim C1: on the toy input with primary p q r, secondary x y,
and the five listed options, with minimax disabled, the search completes
and the visitor is called exactly once, with the solution
[[q, x:A], [p, r, x:A, y]] — both occurrences of x carrying color A and y
uncolored. -/
theorem C1_toy_unique_solution :
    toyRun.map (fun r => (r.isDone, r.visitsOf)) =
      some (true, [[["q", "x:A"], ["p", "r", "x:A", "y"]]]) := by
  rfl

end XCCV

namespace XCCV

set_option maxRecDepth 100000

/-! ## C2: counterexample -/

/-- Claim C2 counterexample: two completed searches whose final arrays
differ from their post-build state.  With minimax disabled (toy input) the
color entry of secondary header x (index 4) ends at 1, the purification
scratch, against 0 after building; with minimax enabled (scenario 3) the
llen entry of item a (top index 1) ends at 1 against 3 after building. -/
theorem C2_arrays_not_restored :
    toyRun.map (fun r => (r.isDone, r.visitsOf.length,
        match r with | .err _ => none | .ok _ m => some (m.t.color 4))) =
      some (true, 1, some 1) ∧
    toyT0.color 4 = 0 ∧
    s3Run.map (fun r => (r.isDone,
        match r with | .err _ => none | .ok _ m => some (m.t.top 1))) =
      some (true, some 1) ∧
    (initTbl s3I s3S s3O).top 1 = 3 := by
  exact ⟨rfl, rfl, rfl, rfl⟩

/-! ## C5: counterexample -/

/-- The reachable machine of the toy input after 2 driver transitions
(at C2 of level 1, with secondary item y = 5 active and its list
incoherent after an earlier purification). -/
def toyS2 : Option Mach := stepN 300 cfg0 visTrue 2 toyM0

/-- Claim C5 counterexample: at the reachable toy state after 2 driver
transitions, header 5 (secondary y) is active, yet cover(5) followed
immediately by uncover(5) (minimax disabled) changes dlink[3] from 3 to
23: it relinks the hidden node 23 into the list of covered item r. -/
theorem C5_roundtrip_fails_on_reachable_state :
    toyS2.map (fun m => (m.phase, activeSec 20 m.t 5, m.t.dlink 3, m.t.ulink 3,
        ((cover 300 m.t 5).bind (fun t1 => uncover 300 false t1 5)).map
          (fun t2 => (t2.dlink 3, t2.ulink 3)))) =
      some (Phase.c2, true, 3, 3, some (23, 23)) := by
  rfl

/-! ## C6: counterexample -/

/-- Claim C6 counterexample: at the post-build toy state (the reachable
state entering C2 at level 0), node 10 has color 1 > 0 and its item
top[10] = 5 (secondary y) is active, yet purify(10) followed immediately
by unpurify(10) leaves color[10] = -1 (it was 1) and color[5] = 1 (the
scratch header entry, 0 after building): the tables are not restored. -/
theorem C6_roundtrip_fails_as_stated :
    (toyT0.color 10, toyT0.top 10, activeSec 20 toyT0 5, toyT0.color 5,
      ((purify 300 toyT0 10).bind (fun t1 => unpurify 300 false t1 10)).map
        (fun t2 => (t2.color 10, t2.color 5))) =
      (1, 5, true, 0, some (-1, 1)) := by
  rfl

/-! ## C7: the I5 invariant fails on the code -/

/-- Claim C7: evaluation of the engine at the failing input.  On the
repository's own minimax test case, after 5 driver transitions the
machine is at C8 (right after the first visited solution lowered cutoff
to 38), item 6 (secondary y) is active, and node 40 > 38 is still linked
into y's vertical list: invariant I5 is violated after a C8 transition,
because the cutoff update prunes only the branched items' lists. -/
theorem C7_I5_violated_after_C8 :
    bigS5.map (fun m => (m.phase, m.t.cutoff, activeSec 20 m.t 6,
        inVList 30 m.t 6 40, inVList 30 m.t 6 44)) =
      some (Phase.c8, 38, true, true, true) := by
  rfl

end XCCV

namespace XCCV

/-! ## Frame lemmas: the link primitives never touch the table's
structural fields (sizes, names, colors table, level, state, cutoff). -/

/-- The fields of the tables that no link primitive writes. -/
def Tbl.fr (t : Tbl) :
    Nat × Nat × Nat × Nat × List String × List String × Nat × List Nat × Nat :=
  (t.n1, t.n2, t.n, t.size, t.name, t.colors, t.level, t.state, t.cutoff)

theorem hideStep_fr (t : Tbl) (q : Nat) : (hideStep t q).1.fr = t.fr := by
  unfold hideStep
  by_cases h1 : t.top q ≤ 0
  · simp [h1]
  · by_cases h2 : 0 ≤ t.color q
    · simp [h1, h2, spliceOut, Tbl.fr]
    · simp [h1, h2]

theorem hideAux_fr (p : Nat) :
    ∀ (f : Nat) (t : Tbl) (q : Nat) (t' : Tbl),
      hideAux p f t q = some t' → t'.fr = t.fr := by
  intro f
  induction f with
  | zero => intro t q t' h; exact absurd h (by simp [hideAux])
  | succ g ih =>
    intro t q t' h
    rw [hideAux] at h
    split at h
    · cases h; rfl
    · exact (ih _ _ _ h).trans (hideStep_fr t q)

theorem hide_fr (fuel : Nat) (t : Tbl) (p : Nat) (t' : Tbl)
    (h : hide fuel t p = some t') : t'.fr = t.fr :=
  hideAux_fr p fuel t (p + 1) t' h

theorem unhideStep_fr (mm : Bool) (t : Tbl) (q : Nat) :
    (unhideStep mm t q).1.fr = t.fr := by
  unfold unhideStep
  by_cases h1 : t.top q ≤ 0
  · simp [h1]
  · by_cases h2 : mm = true ∧ t.cutoff < t.dlink q
    · by_cases h3 : 0 ≤ t.color q
      · simp [h1, h2, h3, spliceInUD, Tbl.fr]
      · simp [h1, h2, h3, Tbl.fr]
    · by_cases h3 : 0 ≤ t.color q
      · simp [h1, h2, h3, spliceInUD, Tbl.fr]
      · simp [h1, h2, h3]

theorem unhideAux_fr (mm : Bool) (p : Nat) :
    ∀ (f : Nat) (t : Tbl) (q : Nat) (t' : Tbl),
      unhideAux mm p f t q = some t' → t'.fr = t.fr := by
  intro f
  induction f with
  | zero => intro t q t' h; exact absurd h (by simp [unhideAux])
  | succ g ih =>
    intro t q t' h
    rw [unhideAux] at h
    split at h
    · cases h; rfl
    · exact (ih _ _ _ h).trans (unhideStep_fr mm t q)

theorem unhide_fr (fuel : Nat) (mm : Bool) (t : Tbl) (p : Nat) (t' : Tbl)
    (h : unhide fuel mm t p = some t') : t'.fr = t.fr :=
  unhideAux_fr mm p fuel t (p - 1) t' h

theorem hdrOut_fr (t : Tbl) (i : Nat) : (hdrOut t i).fr = t.fr := rfl

theorem hdrIn_fr (t : Tbl) (i : Nat) : (hdrIn t i).fr = t.fr := rfl

theorem coverAux_fr (fuel i : Nat) :
    ∀ (g : Nat) (t : Tbl) (p : Nat) (t' : Tbl),
      coverAux fuel i g t p = some t' → t'.fr = t.fr := by
  intro g
  induction g with
  | zero => intro t p t' h; exact absurd h (by simp [coverAux])
  | succ g ih =>
    intro t p t' h
    rw [coverAux] at h
    split at h
    · cases h; rfl
    · simp only [Option.bind_eq_bind, Option.bind_eq_some] at h
      obtain ⟨t1, h1, h2⟩ := h
      exact (ih _ _ _ h2).trans (hide_fr fuel t p t1 h1)

theorem cover_fr (fuel : Nat) (t : Tbl) (i : Nat) (t' : Tbl)
    (h : cover fuel t i = some t') : t'.fr = t.fr := by
  unfold cover at h
  simp only [Option.bind_eq_bind, Option.bind_eq_some] at h
  obtain ⟨t1, h1, h2⟩ := h
  cases h2
  exact (hdrOut_fr t1 i).trans (coverAux_fr fuel i fuel t (t.dlink i) t1 h1)

theorem uncoverPre_fr (i : Nat) :
    ∀ (g : Nat) (t : Tbl) (q : Nat) (t' : Tbl),
      uncoverPre i g t q = some t' → t'.fr = t.fr := by
  intro g
  induction g with
  | zero => intro t q t' h; exact absurd h (by simp [uncoverPre])
  | succ g ih =>
    intro t q t' h
    rw [uncoverPre] at h
    split at h
    · cases h; rfl
    · refine (ih _ _ _ h).trans ?_
      split <;> rfl

theorem uncoverAux_fr (fuel : Nat) (mm : Bool) (i : Nat) :
    ∀ (g : Nat) (t : Tbl) (p : Nat) (t' : Tbl),
      uncoverAux fuel mm i g t p = some t' → t'.fr = t.fr := by
  intro g
  induction g with
  | zero => intro t p t' h; exact absurd h (by simp [uncoverAux])
  | succ g ih =>
    intro t p t' h
    rw [uncoverAux] at h
    split at h
    · cases h; rfl
    · simp only [Option.bind_eq_bind, Option.bind_eq_some] at h
      obtain ⟨t1, h1, h2⟩ := h
      exact (ih _ _ _ h2).trans (unhide_fr fuel mm t p t1 h1)

theorem uncover_fr (fuel : Nat) (mm : Bool) (t : Tbl) (i : Nat) (t' : Tbl)
    (h : uncover fuel mm t i = some t') : t'.fr = t.fr := by
  unfold uncover at h
  cases mm with
  | true =>
    simp only [if_true, Option.bind_eq_bind, Option.bind_eq_some] at h
    obtain ⟨t0, h0, h1⟩ := h
    exact (uncoverAux_fr fuel true i fuel _ _ t' h1).trans
      ((hdrIn_fr t0 i).trans (uncoverPre_fr i fuel t (t.dlink i) t0 h0))
  | false =>
    simp only [Bool.false_eq_true, if_false, Option.bind_eq_bind,
      Option.some_bind] at h
    exact (uncoverAux_fr fuel false i fuel _ _ t' h).trans (hdrIn_fr t i)

end XCCV

namespace XCCV

/-! ## C4 -/

/-- Modelled from the spec: the forced unwind as the specification
describes it — for each level from level-1 down to kMax, first uncommit
that level's option's items (the C6 walk), then uncover the item branched
on at that level, decrementing level. -/
def specUnwindAux (fuel : Nat) (mm : Bool) : Nat → Tbl → Option Tbl
  | 0, t => some t
  | cnt + 1, t => do
    let k := t.level - 1
    let p := t.state.getD k 0
    let t1 ← uncommitWalk fuel mm p fuel t (p - 1)
    let i := (t.top p).toNat
    let t2 ← uncover fuel mm t1 i
    specUnwindAux fuel mm cnt { t2 with level := t2.level - 1 }

/-- Modelled from the spec: the minimax tail of lvisit with the forced
unwind replaced by the spec's uncommit-then-uncover version, for
comparison with the source's lvisitCut. -/
def specLvisitCut (fuel : Nat) (cfg : XCCOptions) (t : Tbl) (pMax lMax : Nat) :
    Option Tbl :=
  if cfg.minimax then do
    let pp ← ppWalk t cfg.minimaxSingle fuel pMax
    if pp ≠ t.cutoff then
      let t1 := { t with cutoff := pp }
      let t2 ← pruneAll fuel (t1.state.take t1.level) t1
      if cfg.minimaxSingle then specUnwindAux fuel cfg.minimax (t2.level - lMax) t2
      else some t2
    else some t
  else some t

/-- Claim C4 counterexample: at the reachable scenario-5 machine after 4
transitions the solution is complete (rlink[0] = 0 at C2), the visit
computes pMax = 16, kMax = 0, and updates the cutoff (32767 becomes 15);
the source's forced unwind then leaves rlink[6] = 5 (secondary items x
and y still covered), whereas the spec's uncommit-then-uncover unwind
would give rlink[6] = 3: the engine does not uncommit the unwound
levels' options. -/
theorem C4_unwind_skips_uncommit :
    s5S4.map (fun m => (m.phase, m.t.rlink 0, m.t.cutoff,
        (lvisitPass1 m.t 300 0 (m.t.state.take m.t.level) [] [] 0 0).map
          (fun r => (r.2.2.1, r.2.2.2)),
        (lvisitCut 300 cfgMS m.t 16 0).map (fun t => (t.rlink 6, t.cutoff)),
        (specLvisitCut 300 cfgMS m.t 16 0).map (fun t => (t.rlink 6, t.cutoff)))) =
      some (Phase.c2, 0, 32767, some (16, 0), some (5, 15), some (3, 15)) := by
  rfl

/-- The uncover-only fold that the source's forced unwind actually
performs: for each listed level k, uncover the item top[state[k]] and set
level to k. -/
def uncoverFold (fuel : Nat) (mm : Bool) : List Nat → Tbl → Option Tbl
  | [], t => some t
  | k :: ks, t => do
    let t1 ← uncover fuel mm t ((t.top (t.state.getD k 0)).toNat)
    uncoverFold fuel mm ks { t1 with level := k }

/-- Claim C4 amended: whenever the minimax-single visit updates the
cutoff, the forced unwind runs, for k from level-1 down to kMax, only
uncover(top[state[k]]) with a level decrement at each step — the unwound
options' items are not uncommitted. -/
theorem C4_unwind_is_uncover_only (fuel : Nat) (mm : Bool) :
    ∀ (cnt : Nat) (t : Tbl), cnt ≤ t.level →
      unwindAux fuel mm cnt t =
        uncoverFold fuel mm ((List.range cnt).map (fun j => t.level - 1 - j)) t := by
  intro cnt
  induction cnt with
  | zero => intro t _; rfl
  | succ n ih =>
    intro t hcnt
    rw [unwindAux, List.range_succ_eq_map]
    simp only [List.map_cons, List.map_map]
    rw [uncoverFold]
    simp only [Nat.sub_zero]
    cases huc : uncover fuel mm t ((t.top (t.state.getD (t.level - 1) 0)).toNat) with
    | none => simp
    | some t1 =>
      simp only [Option.bind_eq_bind, Option.some_bind]
      have hfr := uncover_fr fuel mm t _ t1 huc
      have hlev : t1.level = t.level := congrArg (fun z => z.2.2.2.2.2.2.1) hfr
      have hst : t1.state = t.state := congrArg (fun z => z.2.2.2.2.2.2.2.1) hfr
      have h2 : n ≤ ({ t1 with level := t1.level - 1 } : Tbl).level := by
        simp only [hlev]
        omega
      rw [ih { t1 with level := t1.level - 1 } h2]
      have hli : (List.range n).map ((fun j => t.level - 1 - j) ∘ Nat.succ) =
          (List.range n).map
            (fun j => ({ t1 with level := t1.level - 1 } : Tbl).level - 1 - j) := by
        refine List.map_congr_left (fun j _ => ?_)
        simp only [Function.comp_apply, hlev]
        omega
      rw [hli, hlev]

/-- Witness for C4 amended at the reachable pruned scenario-5 tables. -/
def dummyTbl : Tbl :=
  { n1 := 0, n2 := 0, n := 0, size := 0, name := [],
    llink := fun _ => 0, rlink := fun _ => 0, top := fun _ => 0,
    ulink := fun _ => 0, dlink := fun _ => 0, color := fun _ => 0,
    colors := [], level := 0, state := [], cutoff := 0 }

/-- The scenario-5 tables at the visit, after the cutoff update and the
pruning pass, immediately before the forced unwind. -/
def s5Star : Tbl :=
  ((s5S4.map Mach.t).bind (fun t =>
    pruneAll 300 (t.state.take t.level) { t with cutoff := 15 })).getD dummyTbl

theorem C4_unwind_is_uncover_only_witness :
    2 ≤ s5Star.level ∧
      unwindAux 300 true 2 s5Star =
        uncoverFold 300 true ((List.range 2).map (fun j => s5Star.level - 1 - j))
          s5Star :=
  ⟨by decide, C4_unwind_is_uncover_only 300 true 2 s5Star (by decide)⟩

end XCCV


namespace XCCV

/-! ## C9 -/

/-- A valid input whose table outgrows the cutoff sentinel: one primary
item and a single option that repeats it 32768 times. -/
def c9O : List (List String) := [List.replicate 32768 "a"]

def c9T : Tbl := initTbl ["a"] [] c9O

theorem initTbl_cutoff (it sec : List String) (ops : List (List String)) :
    (initTbl it sec ops).cutoff = 32767 := rfl

theorem initTbl_size (it sec : List String) (ops : List (List String)) :
    (initTbl it sec ops).size =
      it.length + sec.length + 1 + ops.length + 1 + (ops.map List.length).sum := rfl

theorem initTbl_top_eq (it sec : List String) (ops : List (List String)) :
    (initTbl it sec ops).top =
      (ops.foldl (insertOpt (mkName it sec))
        (initBuild (it.length + sec.length))).top := rfl

theorem checkToks_replicate_a (opt : List String) :
    ∀ k : Nat, checkToks ["a"] [] opt (List.replicate k "a") = none := by
  intro k
  induction k with
  | zero => rfl
  | succ n ih =>
    rw [List.replicate_succ, checkToks]
    have hs : stripColon "a" = "a" := rfl
    simp only [hs, List.mem_singleton, List.not_mem_nil]
    simp [ih]

theorem foldl_insertTok_x (nm : List String) :
    ∀ (l : List String) (b : Build), (l.foldl (insertTok nm) b).x = b.x + l.length := by
  intro l
  induction l with
  | nil => intro b; simp
  | cons a l ih =>
    intro b
    rw [List.foldl_cons, ih]
    have h : (insertTok nm b a).x = b.x + 1 := rfl
    rw [h]
    simp
    omega

/-- The node inserted by the last token of the long option sits at index
32770 and belongs to item 1. -/
theorem c9_top_node : c9T.top 32770 = 1 := by
  have h0 : c9T.top = (c9O.foldl (insertOpt (mkName ["a"] []))
      (initBuild ((["a"] : List String).length + ([] : List String).length))).top :=
    initTbl_top_eq ["a"] [] c9O
  rw [h0]
  have h1 : (["a"] : List String).length + ([] : List String).length = 1 := rfl
  rw [h1]
  rw [show c9O = [List.replicate 32768 "a"] from rfl]
  rw [List.foldl_cons, List.foldl_nil]
  rw [show (32768 : Nat) = 32767 + 1 from rfl, List.replicate_succ']
  unfold insertOpt
  rw [List.foldl_append, List.foldl_cons, List.foldl_nil]
  set b2 := (List.replicate 32767 "a").foldl (insertTok (mkName ["a"] []))
    (initBuild 1) with hb2def
  have hb2 : b2.x = 32769 := by
    rw [hb2def, foldl_insertTok_x, List.length_replicate]
    rfl
  have hins : (insertTok (mkName ["a"] []) b2 "a").x = 32770 := by
    have h : (insertTok (mkName ["a"] []) b2 "a").x = b2.x + 1 := rfl
    rw [h, hb2]
  dsimp only
  rw [hins]
  have htop : (insertTok (mkName ["a"] []) b2 "a").top =
      updf (updf b2.top (b2.x + 1) ((mkName ["a"] []).findIdx (· == "a") : Int))
        ((mkName ["a"] []).findIdx (· == "a"))
        ((updf b2.top (b2.x + 1)
          ((mkName ["a"] []).findIdx (· == "a") : Int))
          ((mkName ["a"] []).findIdx (· == "a")) + 1) := rfl
  rw [htop]
  have hfi : (mkName ["a"] []).findIdx (· == "a") = 1 := rfl
  rw [hfi, hb2]
  rw [updf_ne _ _ _ _ (by decide)]
  rw [updf_ne _ _ _ _ (by decide)]
  rw [updf_same]
  rfl

/-- Claim C9 counterexample: for the valid input c9O the initialization
sets cutoff to 32767, but node 32770 of the built table (the last
occurrence of item a; the table size is 32772) is not below the sentinel:
the sentinel is not larger than every node index. -/
theorem C9_sentinel_not_above_all_nodes :
    validate ["a"] c9O [] = none ∧
    c9T.cutoff = 32767 ∧
    c9T.size = 32772 ∧
    c9T.top 32770 = 1 ∧
    ¬ (32770 < c9T.cutoff) := by
  have hc : c9T.cutoff = 32767 := initTbl_cutoff ["a"] [] c9O
  refine ⟨?_, hc, ?_, c9_top_node, ?_⟩
  · show validate ["a"] [List.replicate 32768 "a"] [] = none
    unfold validate
    rw [if_neg (by simp)]
    have h1 : checkDups [] ["a"] = none := rfl
    have h2 : checkSec ["a"] [] [] = none := rfl
    simp only [h1, h2]
    show checkOptions ["a"] [] [List.replicate 32768 "a"] = none
    unfold checkOptions
    rw [checkToks_replicate_a]
    rfl
  · have hs := initTbl_size ["a"] [] c9O
    rw [show c9T.size = (initTbl ["a"] [] c9O).size from rfl, hs]
    rw [show c9O = [List.replicate 32768 "a"] from rfl]
    rw [List.map_cons, List.map_nil, List.length_replicate, List.sum_cons,
      List.sum_nil]
    rfl
  · rw [hc]
    decide

/-- Claim C9 amended: initialization always sets cutoff to the fixed
sentinel 32767 (math.MaxInt16); that sentinel is strictly larger than
every index of the built table only when the table size is at most
32767, not regardless of the table's size. -/
theorem C9_cutoff_fixed_sentinel (items secondary : List String)
    (options : List (List String)) :
    (initTbl items secondary options).cutoff = 32767 ∧
    ((initTbl items secondary options).size ≤ 32767 →
      ∀ x < (initTbl items secondary options).size,
        x < (initTbl items secondary options).cutoff) := by
  refine ⟨initTbl_cutoff items secondary options, ?_⟩
  intro hsz x hx
  have hc := initTbl_cutoff items secondary options
  omega

/-- Witness for C9 amended on the toy tables (size 26 ≤ 32767). -/
theorem C9_cutoff_fixed_sentinel_witness :
    (initTbl toyItems toySecondary toyOptions).cutoff = 32767 ∧
      25 < (initTbl toyItems toySecondary toyOptions).cutoff :=
  ⟨(C9_cutoff_fixed_sentinel toyItems toySecondary toyOptions).1,
    (C9_cutoff_fixed_sentinel toyItems toySecondary toyOptions).2 (by decide) 25
      (by decide)⟩

end XCCV

namespace XCCV

/-! ## C8 -/

/-- The claim's malformedness conditions, written from the spec's words:
empty primary list, duplicate primary name, secondary name equal to a
primary or an earlier secondary, or an option token naming (after
stripping a ":color" suffix) no declared item. -/
def specMalformed (items secondary : List String)
    (options : List (List String)) : Prop :=
  items = [] ∨ ¬ items.Nodup ∨ (∃ s ∈ secondary, s ∈ items) ∨
    ¬ secondary.Nodup ∨
    ∃ opt ∈ options, ∃ tok ∈ opt,
      stripColon tok ∉ items ∧ stripColon tok ∉ secondary

instance (items secondary : List String) (options : List (List String)) :
    Decidable (specMalformed items secondary options) := by
  unfold specMalformed
  infer_instance

theorem checkDups_none_iff :
    ∀ (xs seen : List String),
      checkDups seen xs = none ↔ xs.Nodup ∧ ∀ x ∈ xs, x ∉ seen := by
  intro xs
  induction xs with
  | nil => intro seen; simp [checkDups]
  | cons x xs ih =>
    intro seen
    rw [checkDups]
    by_cases hx : x ∈ seen
    · simp only [if_pos hx]
      simp [hx]
    · simp only [if_neg hx, ih (x :: seen)]
      simp only [List.nodup_cons, List.mem_cons, not_or]
      constructor
      · rintro ⟨hnd, hall⟩
        refine ⟨⟨fun hmem => (hall x hmem).1 rfl, hnd⟩, ?_⟩
        intro y hy
        rcases hy with rfl | hy
        · exact hx
        · exact (hall y hy).2
      · rintro ⟨⟨hxmem, hnd⟩, hall⟩
        refine ⟨hnd, fun y hy => ⟨fun he => hxmem (he ▸ hy), hall y (Or.inr hy)⟩⟩

theorem checkSec_none_iff (mItems : List String) :
    ∀ (xs seen : List String),
      checkSec mItems seen xs = none ↔
        xs.Nodup ∧ ∀ x ∈ xs, x ∉ mItems ∧ x ∉ seen := by
  intro xs
  induction xs with
  | nil => intro seen; simp [checkSec]
  | cons x xs ih =>
    intro seen
    rw [checkSec]
    by_cases hx : x ∈ mItems ∨ x ∈ seen
    · simp only [if_pos hx]
      constructor
      · intro h; cases h
      · rintro ⟨-, hall⟩
        rcases hx with hx | hx
        · exact absurd hx (hall x (List.mem_cons_self x xs)).1
        · exact absurd hx (hall x (List.mem_cons_self x xs)).2
    · push_neg at hx
      simp only [if_neg (by push_neg; exact hx : ¬ (x ∈ mItems ∨ x ∈ seen))]
      rw [ih (x :: seen)]
      simp only [List.nodup_cons, List.mem_cons]
      constructor
      · rintro ⟨hnd, hall⟩
        refine ⟨⟨fun hmem => (hall x hmem).2 (Or.inl rfl), hnd⟩, ?_⟩
        rintro y (rfl | hy)
        · exact ⟨hx.1, hx.2⟩
        · refine ⟨(hall y hy).1, fun hys => (hall y hy).2 (Or.inr hys)⟩
      · rintro ⟨⟨hxmem, hnd⟩, hall⟩
        refine ⟨hnd, fun y hy => ⟨(hall y (Or.inr hy)).1, ?_⟩⟩
        rintro (rfl | hys)
        · exact hxmem hy
        · exact (hall y (Or.inr hy)).2 hys

theorem checkToks_none_iff (mI mS : List String) (opt : List String) :
    ∀ toks : List String,
      checkToks mI mS opt toks = none ↔
        ∀ tok ∈ toks, stripColon tok ∈ mI ∨ stripColon tok ∈ mS := by
  intro toks
  induction toks with
  | nil => simp [checkToks]
  | cons tok toks ih =>
    rw [checkToks]
    by_cases h : stripColon tok ∈ mI ∨ stripColon tok ∈ mS
    · simp only [if_pos h, ih]
      simp only [List.mem_cons]
      constructor
      · rintro hall y (rfl | hy)
        · exact h
        · exact hall y hy
      · intro hall y hy
        exact hall y (Or.inr hy)
    · simp only [if_neg h]
      constructor
      · intro hh; cases hh
      · intro hall
        exact absurd (hall tok (List.mem_cons_self tok toks)) h

theorem checkOptions_none_iff (mI mS : List String) :
    ∀ options : List (List String),
      checkOptions mI mS options = none ↔
        ∀ opt ∈ options, ∀ tok ∈ opt,
          stripColon tok ∈ mI ∨ stripColon tok ∈ mS := by
  intro options
  induction options with
  | nil => simp [checkOptions]
  | cons opt rest ih =>
    rw [checkOptions]
    cases hck : checkToks mI mS opt opt with
    | some e =>
      simp only []
      constructor
      · intro hh; cases hh
      · intro hall
        have := (checkToks_none_iff mI mS opt opt).2 (hall opt (List.mem_cons_self opt rest))
        rw [this] at hck
        cases hck
    | none =>
      simp only [ih, List.mem_cons]
      constructor
      · intro hall y hy
        rcases hy with rfl | hy
        · exact (checkToks_none_iff mI mS y y).1 hck
        · exact hall y hy
      · intro hall y hy
        exact hall y (Or.inr hy)

theorem validate_none_iff (items secondary : List String)
    (options : List (List String)) :
    validate items options secondary = none ↔
      ¬ specMalformed items secondary options := by
  unfold validate
  by_cases hemp : items = []
  · simp only [if_pos hemp, specMalformed]
    constructor
    · intro h; cases h
    · intro h
      exact absurd (Or.inl hemp) h
  · rw [if_neg hemp]
    cases hd : checkDups [] items with
    | some e =>
      simp only []
      constructor
      · intro h; cases h
      · intro h
        exfalso
        apply h
        unfold specMalformed
        by_cases hnd : items.Nodup
        · rw [(checkDups_none_iff items []).2 ⟨hnd, by simp⟩] at hd
          cases hd
        · exact Or.inr (Or.inl hnd)
    | none =>
      have hnd : items.Nodup := ((checkDups_none_iff items []).1 hd).1
      cases hs : checkSec items [] secondary with
      | some e =>
        simp only []
        constructor
        · intro h; cases h
        · intro h
          exfalso
          apply h
          unfold specMalformed
          by_cases hok : secondary.Nodup ∧ ∀ s ∈ secondary, s ∉ items
          · rw [(checkSec_none_iff items secondary []).2
              ⟨hok.1, fun x hx => ⟨hok.2 x hx, by simp⟩⟩] at hs
            cases hs
          · rw [Classical.not_and_iff_or_not_not] at hok
            rcases hok with hok | hok
            · exact Or.inr (Or.inr (Or.inr (Or.inl hok)))
            · push_neg at hok
              obtain ⟨s, hs1, hs2⟩ := hok
              exact Or.inr (Or.inr (Or.inl ⟨s, hs1, hs2⟩))
      | none =>
        have hsec := (checkSec_none_iff items secondary []).1 hs
        rw [checkOptions_none_iff]
        unfold specMalformed
        constructor
        · intro hall hbad
          rcases hbad with hbad | hbad | hbad | hbad | hbad
          · exact hemp hbad
          · exact hbad hnd
          · obtain ⟨s, hs1, hs2⟩ := hbad
            exact (hsec.2 s hs1).1 hs2
          · exact hbad hsec.1
          · obtain ⟨opt, hopt, tok, htok, h1, h2⟩ := hbad
            rcases hall opt hopt tok htok with h | h
            · exact h1 h
            · exact h2 h
        · intro hmal opt hopt tok htok
          by_cases h1 : stripColon tok ∈ items
          · exact Or.inl h1
          · by_cases h2 : stripColon tok ∈ secondary
            · exact Or.inr h2
            · exact absurd (Or.inr (Or.inr (Or.inr (Or.inr
                ⟨opt, hopt, tok, htok, h1, h2⟩)))) hmal

theorem XCC_of_valid (fuel : Nat) (items secondary : List String)
    (options : List (List String)) (stats : Option ExactCoverStats)
    (xopts : Option XCCOptions) (vis : List (List String) → Bool)
    (hv : validate items options secondary = none) :
    XCC fuel items options secondary stats xopts vis =
      (runM fuel (xopts.getD ⟨false, false, false⟩) vis fuel
        (mkMach items secondary options stats)).map
          (fun r => XCCResult.ok r.2 r.1) := by
  unfold XCC
  rw [hv]

/-- Claim C8: XCC returns a validation error — carrying no table and no
visitor calls — exactly when the input is malformed in the spec's sense;
for a well-formed input the search machine is entered on the freshly
built tables. -/
theorem C8_validation_exact (fuel : Nat) (items secondary : List String)
    (options : List (List String)) (stats : Option ExactCoverStats)
    (xopts : Option XCCOptions) (vis : List (List String) → Bool) :
    ((∃ e, XCC fuel items options secondary stats xopts vis =
        some (XCCResult.err e)) ↔ specMalformed items secondary options) ∧
    (∀ e, (XCCResult.err e).visitsOf = []) ∧
    (¬ specMalformed items secondary options →
      XCC fuel items options secondary stats xopts vis =
        (runM fuel (xopts.getD ⟨false, false, false⟩) vis fuel
          (mkMach items secondary options stats)).map
            (fun r => XCCResult.ok r.2 r.1)) := by
  refine ⟨?_, fun e => rfl, ?_⟩
  · cases hv : validate items options secondary with
    | some e =>
      have hne : validate items options secondary ≠ none := by
        rw [hv]
        simp
      have hm : specMalformed items secondary options := by
        by_contra hok
        exact hne ((validate_none_iff items secondary options).2 hok)
      refine ⟨fun _ => hm, fun _ => ⟨e, ?_⟩⟩
      unfold XCC
      rw [hv]
    | none =>
      have hok := (validate_none_iff items secondary options).1 hv
      constructor
      · rintro ⟨e, he⟩
        rw [XCC_of_valid fuel items secondary options stats xopts vis hv] at he
        exfalso
        cases hrm : (runM fuel (xopts.getD ⟨false, false, false⟩) vis fuel
            (mkMach items secondary options stats)) with
        | none =>
          rw [hrm] at he
          simp at he
        | some r =>
          rw [hrm] at he
          simp at he
      · intro hmal
        exact absurd hmal hok
  · intro hok
    exact XCC_of_valid fuel items secondary options stats xopts vis
      ((validate_none_iff items secondary options).2 hok)

/-- Witness for C8 on the toy input: well-formed, so the search machine
is entered. -/
theorem C8_validation_exact_witness :
    ¬ specMalformed toyItems toySecondary toyOptions ∧
      XCC 300 toyItems toyOptions toySecondary none none visTrue =
        (runM 300 ((none : Option XCCOptions).getD ⟨false, false, false⟩)
          visTrue 300 (mkMach toyItems toySecondary toyOptions none)).map
            (fun r => XCCResult.ok r.2 r.1) :=
  ⟨by decide,
    (C8_validation_exact 300 toyItems toySecondary toyOptions none none
      visTrue).2.2 (by decide)⟩

end XCCV


namespace XCCV

/-! ## C10 -/

/-- The machine inside a step result. -/
def StepOut.mach : StepOut → Mach
  | .cont m => m
  | .done m => m
  | .halted m => m

theorem initStats_keeps_counts (st : ExactCoverStats) (n : Nat) :
    (initStats st n).Solutions = st.Solutions ∧
      (initStats st n).Nodes = st.Nodes := ⟨rfl, rfl⟩

theorem c2Stats_counts (level : Nat) (st st' : ExactCoverStats)
    (h : c2Stats level st = some st') :
    st'.Solutions = st.Solutions ∧ st.Nodes ≤ st'.Nodes := by
  unfold c2Stats at h
  split at h
  · dsimp only at h
    split at h
    · injection h with h
      split at h <;> (try split at h) <;> (rw [← h]; exact ⟨rfl, by simp⟩)
    · injection h with h
      rw [← h]
      exact ⟨rfl, by simp⟩
  · cases h

/-- One driver step keeps the balance between the Solutions counter and
the number of recorded visits, and never decreases Nodes. -/
theorem step_stats (fuel : Nat) (cfg : XCCOptions)
    (vis : List (List String) → Bool) (m : Mach) (out : StepOut)
    (hstep : step fuel cfg vis m = some out) (st : ExactCoverStats)
    (hst : m.stats = some st) :
    ∃ st', out.mach.stats = some st' ∧
      st'.Solutions + m.visits.length =
        st.Solutions + out.mach.visits.length ∧
      st.Nodes ≤ st'.Nodes := by
  obtain ⟨t, phase, i, stats, visits⟩ := m
  cases hst
  cases phase with
  | c2 =>
    simp only [step] at hstep
    simp only [Option.bind_eq_bind, Option.bind_eq_some] at hstep
    obtain ⟨st1, hst1, hstep⟩ := hstep
    obtain ⟨hsol1, hnod1⟩ := c2Stats_counts _ _ _ hst1
    obtain ⟨a, ha, hstep⟩ := hstep
    injection ha with ha
    subst ha
    dsimp only at hstep
    split at hstep
    · simp only [Option.bind_eq_bind, Option.bind_eq_some] at hstep
      obtain ⟨r, hlv, hout⟩ := hstep
      split at hout <;>
        (injection hout with hout; rw [← hout];
         refine ⟨_, rfl, ?_, hnod1⟩;
         simp only [StepOut.mach, List.length_append, List.length_cons,
           List.length_nil];
         omega)
    · simp only [Option.bind_eq_bind, Option.bind_eq_some] at hstep
      obtain ⟨i1, hi1, t1, ht1, hstep⟩ := hstep
      split at hstep
      · injection hstep with hout
        rw [← hout]
        exact ⟨st1, rfl, by simp [StepOut.mach, hsol1], hnod1⟩
      · cases hstep
  | c5 =>
    simp only [step] at hstep
    split at hstep
    · injection hstep with h
      rw [← h]
      exact ⟨st, rfl, rfl, le_refl _⟩
    · simp only [Option.bind_eq_bind, Option.bind_eq_some] at hstep
      obtain ⟨t1, ht1, hout⟩ := hstep
      injection hout with hout
      rw [← hout]
      exact ⟨st, rfl, rfl, le_refl _⟩
  | c6 =>
    simp only [step] at hstep
    simp only [Option.bind_eq_bind, Option.bind_eq_some] at hstep
    obtain ⟨t1, ht1, hstep⟩ := hstep
    split at hstep
    · simp only [Option.bind_eq_bind, Option.bind_eq_some] at hstep
      obtain ⟨t2, ht2, hstep⟩ := hstep
      split at hstep
      · injection hstep with hout
        rw [← hout]
        exact ⟨_, rfl, by simp [StepOut.mach], by simp⟩
      · cases hstep
    · simp only [Option.bind_eq_bind, Option.some_bind] at hstep
      split at hstep
      · injection hstep with hout
        rw [← hout]
        exact ⟨_, rfl, by simp [StepOut.mach], by simp⟩
      · cases hstep
  | c7 =>
    simp only [step] at hstep
    simp only [Option.bind_eq_bind, Option.bind_eq_some] at hstep
    obtain ⟨t1, ht1, hout⟩ := hstep
    injection hout with hout
    rw [← hout]
    exact ⟨st, rfl, rfl, le_refl _⟩
  | c8 =>
    simp only [step] at hstep
    split at hstep <;>
      (injection hstep with hout; rw [← hout]; exact ⟨st, rfl, rfl, le_refl _⟩)

theorem runM_stats (fuel : Nat) (cfg : XCCOptions)
    (vis : List (List String) → Bool) :
    ∀ (k : Nat) (m : Mach) (st : ExactCoverStats) (r : Mach × Outcome),
      m.stats = some st → runM fuel cfg vis k m = some r →
      ∃ st', r.1.stats = some st' ∧
        st'.Solutions + m.visits.length = st.Solutions + r.1.visits.length ∧
        st.Nodes ≤ st'.Nodes := by
  intro k
  induction k with
  | zero =>
    intro m st r _ hrun
    exact absurd hrun (by simp [runM])
  | succ k ih =>
    intro m st r hst hrun
    rw [runM] at hrun
    cases hstep : step fuel cfg vis m with
    | none => rw [hstep] at hrun; cases hrun
    | some out =>
      rw [hstep] at hrun
      cases out with
      | cont m' =>
        obtain ⟨st1, hst1, hbal1, hnod1⟩ :=
          step_stats fuel cfg vis m (.cont m') hstep st hst
        obtain ⟨st2, hst2, hbal2, hnod2⟩ := ih m' st1 r hst1 hrun
        simp only [StepOut.mach] at hst1 hbal1
        exact ⟨st2, hst2, by omega, le_trans hnod1 hnod2⟩
      | done m' =>
        injection hrun with hrun
        rw [← hrun]
        exact step_stats fuel cfg vis m (.done m') hstep st hst
      | halted m' =>
        injection hrun with hrun
        rw [← hrun]
        exact step_stats fuel cfg vis m (.halted m') hstep st hst

/-- Claim C10: initialization keeps stats.Solutions and stats.Nodes; a
call that completes (normally or halted by the visitor) leaves Solutions
equal to its pre-call value plus the number of solutions visited during
the call, and Nodes at least its pre-call value, so a stats object reused
across successive calls accumulates the counts over all of them. -/
theorem C10_stats_accumulate (fuel : Nat) (items secondary : List String)
    (options : List (List String)) (st0 : ExactCoverStats)
    (xopts : Option XCCOptions) (vis : List (List String) → Bool)
    (r : XCCResult)
    (h : XCC fuel items options secondary (some st0) xopts vis = some r)
    (hok : r.isErr = false) :
    (initStats st0 (items.length + secondary.length)).Solutions =
        st0.Solutions ∧
    (initStats st0 (items.length + secondary.length)).Nodes = st0.Nodes ∧
    ∃ st', r.statsOf = some st' ∧
      st'.Solutions = st0.Solutions + r.visitsOf.length ∧
      st0.Nodes ≤ st'.Nodes := by
  refine ⟨rfl, rfl, ?_⟩
  cases hv : validate items options secondary with
  | some e =>
    have he : XCC fuel items options secondary (some st0) xopts vis =
        some (XCCResult.err e) := by
      unfold XCC
      rw [hv]
    rw [he] at h
    injection h with h
    rw [← h] at hok
    cases hok
  | none =>
    rw [XCC_of_valid fuel items secondary options (some st0) xopts vis hv] at h
    cases hrm : (runM fuel (xopts.getD ⟨false, false, false⟩) vis fuel
        (mkMach items secondary options (some st0))) with
    | none =>
      rw [hrm] at h
      simp at h
    | some rr =>
      rw [hrm] at h
      rw [show Option.map (fun r => XCCResult.ok r.2 r.1) (some rr) =
          some (XCCResult.ok rr.2 rr.1) from rfl] at h
      injection h with h
      have hst : (mkMach items secondary options (some st0)).stats =
          some (initStats st0 (initTbl items secondary options).n) := rfl
      obtain ⟨st', hst', hbal, hnod⟩ :=
        runM_stats fuel (xopts.getD ⟨false, false, false⟩) vis fuel
          (mkMach items secondary options (some st0))
          (initStats st0 (initTbl items secondary options).n) rr hst hrm
      have hin : (initStats st0 (initTbl items secondary options).n).Solutions =
          st0.Solutions := rfl
      have hinn : (initStats st0 (initTbl items secondary options).n).Nodes =
          st0.Nodes := rfl
      have hve : (mkMach items secondary options (some st0)).visits.length = 0 :=
        rfl
      refine ⟨st', ?_, ?_, by omega⟩
      · rw [← h]
        exact hst'
      · rw [← h]
        show st'.Solutions = st0.Solutions + rr.1.visits.length
        omega

def demoStats : ExactCoverStats :=
  { Solutions := 5, Nodes := 7, Levels := [], MaxLevel := 0, Theta := 0,
    Delta := 0, Debug := false, Progress := false, Verbosity := 0 }

def toyStatsRun : Option XCCResult :=
  XCC 300 toyItems toyOptions toySecondary (some demoStats) none visTrue

def toyStatsRes : XCCResult := toyStatsRun.getD (XCCResult.err VErr.emptyItems)

/-- Witness for C10: the toy run started with Solutions = 5, Nodes = 7
visits one solution and completes. -/
theorem C10_stats_accumulate_witness :
    toyStatsRun = some toyStatsRes ∧ toyStatsRes.isErr = false ∧
      ∃ st', toyStatsRes.statsOf = some st' ∧
        st'.Solutions = demoStats.Solutions + toyStatsRes.visitsOf.length ∧
        demoStats.Nodes ≤ st'.Nodes :=
  ⟨rfl, rfl,
    (C10_stats_accumulate 300 toyItems toySecondary toyOptions demoStats none
      visTrue toyStatsRes rfl rfl).2.2⟩

end XCCV

namespace XCCV

/-! ## Splice-sequence machinery for the cover/uncover and
purify/unpurify round trips -/

/-- Splice a node back in, reading its own stored neighbor links (the
effect of unhide's body with minimax off). -/
def spliceIn (t : Tbl) (q : Nat) : Tbl :=
  spliceInUD t q (t.ulink q) (t.dlink q)

/-- A sequence of splice-outs, first listed first performed. -/
def outSeq (t : Tbl) : List Nat → Tbl
  | [] => t
  | q :: qs => outSeq (spliceOut t q) qs

/-- A sequence of splice-ins, first listed first performed. -/
def inSeq (t : Tbl) : List Nat → Tbl
  | [] => t
  | q :: qs => inSeq (spliceIn t q) qs

/-- Each node of the sequence is doubly linked, and distinct from its
own header cell, at its moment of splicing. -/
def chainValid (t : Tbl) : List Nat → Bool
  | [] => true
  | q :: qs =>
      (t.dlink (t.ulink q) == q) && (t.ulink (t.dlink q) == q) &&
      (!(q == (t.top q).toNat)) && chainValid (spliceOut t q) qs

theorem outSeq_append (t : Tbl) (l1 l2 : List Nat) :
    outSeq t (l1 ++ l2) = outSeq (outSeq t l1) l2 := by
  induction l1 generalizing t with
  | nil => rfl
  | cons q qs ih => simp [outSeq, ih]

theorem inSeq_append (t : Tbl) (l1 l2 : List Nat) :
    inSeq t (l1 ++ l2) = inSeq (inSeq t l1) l2 := by
  induction l1 generalizing t with
  | nil => rfl
  | cons q qs ih => simp [inSeq, ih]


theorem updf_absorb {α : Type} (f : Nat → α) (k : Nat) (v w : α) :
    updf (updf f k v) k w = updf f k w := by
  funext j
  by_cases h : j = k
  · rw [h, updf_same, updf_same]
  · rw [updf_ne _ _ _ _ h, updf_ne _ _ _ _ h, updf_ne _ _ _ _ h]

theorem updf_self {α : Type} (f : Nat → α) (k : Nat) : updf f k (f k) = f := by
  funext j
  by_cases h : j = k
  · rw [h, updf_same]
  · rw [updf_ne _ _ _ _ h]

theorem spliceOut_ulink_self (t : Tbl) (q : Nat) :
    (spliceOut t q).ulink q = t.ulink q := by
  show updf t.ulink (t.dlink q) (t.ulink q) q = t.ulink q
  by_cases h : q = t.dlink q
  · rw [← h, updf_same]
  · rw [updf_ne _ _ _ _ h]

theorem spliceOut_dlink_self (t : Tbl) (q : Nat) :
    (spliceOut t q).dlink q = t.dlink q := by
  show updf t.dlink (t.ulink q) (t.dlink q) q = t.dlink q
  by_cases h : q = t.ulink q
  · rw [← h, updf_same]
  · rw [updf_ne _ _ _ _ h]

/-- The two directions of one splice cancel exactly when the node is
doubly linked and is not its own list header cell. -/
theorem spliceIn_spliceOut (t : Tbl) (q : Nat)
    (h1 : t.dlink (t.ulink q) = q) (h2 : t.ulink (t.dlink q) = q)
    (hx : q ≠ (t.top q).toNat) :
    spliceIn (spliceOut t q) q = t := by
  have ht : (spliceOut t q).top q = t.top q := by
    show updf t.top ((t.top q).toNat) (t.top ((t.top q).toNat) - 1) q = t.top q
    exact updf_ne _ _ _ _ hx
  have hdl : (spliceIn (spliceOut t q) q).dlink = t.dlink := by
    show updf (spliceOut t q).dlink ((spliceOut t q).ulink q) q = t.dlink
    rw [spliceOut_ulink_self]
    show updf (updf t.dlink (t.ulink q) (t.dlink q)) (t.ulink q) q = t.dlink
    rw [updf_absorb]
    nth_rewrite 2 [← h1]
    rw [updf_self]
  have hul : (spliceIn (spliceOut t q) q).ulink = t.ulink := by
    show updf (spliceOut t q).ulink ((spliceOut t q).dlink q) q = t.ulink
    rw [spliceOut_dlink_self]
    show updf (updf t.ulink (t.dlink q) (t.ulink q)) (t.dlink q) q = t.ulink
    rw [updf_absorb]
    nth_rewrite 2 [← h2]
    rw [updf_self]
  have htp : (spliceIn (spliceOut t q) q).top = t.top := by
    show updf (spliceOut t q).top (((spliceOut t q).top q).toNat)
        ((spliceOut t q).top (((spliceOut t q).top q).toNat) + 1) = t.top
    rw [ht]
    show updf (updf t.top ((t.top q).toNat) (t.top ((t.top q).toNat) - 1))
        ((t.top q).toNat)
        (updf t.top ((t.top q).toNat) (t.top ((t.top q).toNat) - 1)
          ((t.top q).toNat) + 1) = t.top
    rw [updf_same, updf_absorb, sub_add_cancel, updf_self]
  have hfin : spliceIn (spliceOut t q) q =
      { t with dlink := (spliceIn (spliceOut t q) q).dlink,
               ulink := (spliceIn (spliceOut t q) q).ulink,
               top := (spliceIn (spliceOut t q) q).top } := rfl
  rw [hfin, hdl, hul, htp]

/-- A valid splice-out sequence is undone exactly by the reversed
splice-in sequence. -/
theorem inSeq_outSeq (qs : List Nat) : ∀ (t : Tbl), chainValid t qs →
    inSeq (outSeq t qs) qs.reverse = t := by
  induction qs with
  | nil => intro t _; rfl
  | cons q qs ih =>
      intro t h
      simp only [chainValid, Bool.and_eq_true, beq_iff_eq, Bool.not_eq_eq_eq_not,
        Bool.not_true, beq_eq_false_iff_ne] at h
      obtain ⟨⟨⟨h1, h2⟩, hx⟩, hrest⟩ := h
      rw [List.reverse_cons]
      show inSeq (outSeq (spliceOut t q) qs) (qs.reverse ++ [q]) = t
      rw [inSeq_append, ih (spliceOut t q) hrest]
      show spliceIn (spliceOut t q) q = t
      exact spliceIn_spliceOut t q h1 h2 hx

/-! ## Walk characterizations: hide/unhide as splice sequences -/

/-- Position j is not a spacer cell of t: either a header-region index or
a node with positive top. -/
def nonSpacerB (t : Tbl) (j : Nat) : Bool :=
  decide (j ≤ t.n) || decide (0 < t.top j)

/-- The walk of hide(p) over the option of p read off the pristine table,
collecting the node positions visited, all required past the header
region. -/
def hWalkAux (t : Tbl) (p : Nat) : Nat → Nat → Option (List Nat)
  | 0, _ => none
  | f + 1, q =>
    if q = p then some []
    else if q ≤ t.n then none
    else if t.top q ≤ 0 then hWalkAux t p f (t.ulink q)
    else (hWalkAux t p f (q + 1)).map (fun l => q :: l)

/-- The walk of unhide(p), mirror image of hWalkAux. -/
def dWalkAux (t : Tbl) (p : Nat) : Nat → Nat → Option (List Nat)
  | 0, _ => none
  | f + 1, q =>
    if q = p then some []
    else if q ≤ t.n then none
    else if t.top q ≤ 0 then dWalkAux t p f (t.dlink q)
    else (dWalkAux t p f (q - 1)).map (fun l => q :: l)

/-- The vertical list of header i walked downward on the pristine table. -/
def vWalkDAux (t : Tbl) (i : Nat) : Nat → Nat → Option (List Nat)
  | 0, _ => none
  | f + 1, q =>
    if q = i then some []
    else if q ≤ t.n then none
    else (vWalkDAux t i f (t.dlink q)).map (fun l => q :: l)

/-- The vertical list of header i walked upward on the pristine table. -/
def vWalkUAux (t : Tbl) (i : Nat) : Nat → Nat → Option (List Nat)
  | 0, _ => none
  | f + 1, q =>
    if q = i then some []
    else if q ≤ t.n then none
    else (vWalkUAux t i f (t.ulink q)).map (fun l => q :: l)

/-- Keep the walk positions whose nodes are actually spliced: those not
marked absorbed. -/
def filtC (t : Tbl) (ms : List Nat) : List Nat :=
  ms.filter (fun r => decide (0 ≤ t.color r))

/-- Concatenated spliced positions over a list of option walks. -/
def flatF (t : Tbl) (mss : List (List Nat)) : List Nat :=
  (mss.map (filtC t)).flatten

/-- The evolving state agrees with the pristine table on every cell that
steers a hide or unhide walk: the region bound, top marks past the header
region, the links of spacer cells, and colors outside the exception
set E. -/
def GuideAgree (t s : Tbl) (E : List Nat) : Prop :=
  s.n = t.n ∧
  (∀ j, t.n < j → s.top j = t.top j) ∧
  (∀ j, t.n < j → t.top j ≤ 0 → s.ulink j = t.ulink j ∧ s.dlink j = t.dlink j) ∧
  (∀ j, j ∉ E → s.color j = t.color j)

/-- The evolving state still agrees with the pristine table on the
vertical links of a protected set of cells. -/
def OrbitAgree (t s : Tbl) (P : List Nat) : Prop :=
  ∀ j ∈ P, s.ulink j = t.ulink j ∧ s.dlink j = t.dlink j

theorem guideAgree_refl (t : Tbl) (E : List Nat) : GuideAgree t t E :=
  ⟨rfl, fun _ _ => rfl, fun _ _ _ => ⟨rfl, rfl⟩, fun _ _ => rfl⟩

theorem orbitAgree_refl (t : Tbl) (P : List Nat) : OrbitAgree t t P :=
  fun _ _ => ⟨rfl, rfl⟩

/-- The cells written when splicing node q (in either direction) stay
clear of the steering cells and of the protected set P. -/
def goodOut (t : Tbl) (P : List Nat) (s : Tbl) (q : Nat) : Bool :=
  decide ((s.top q).toNat ≤ t.n) &&
  nonSpacerB t (s.ulink q) && nonSpacerB t (s.dlink q) &&
  !(decide (s.ulink q ∈ P)) && !(decide (s.dlink q ∈ P))

/-- Every splice-out of the sequence is well-placed at its moment. -/
def okSeq (t : Tbl) (P : List Nat) : Tbl → List Nat → Bool
  | _, [] => true
  | s, q :: qs => goodOut t P s q && okSeq t P (spliceOut s q) qs

/-- Every splice-in of the sequence is well-placed at its moment. -/
def okSeqIn (t : Tbl) (P : List Nat) : Tbl → List Nat → Bool
  | _, [] => true
  | s, q :: qs => goodOut t P s q && okSeqIn t P (spliceIn s q) qs

theorem goodOut_unpack (t : Tbl) (P : List Nat) (s : Tbl) (q : Nat)
    (h : goodOut t P s q = true) :
    (s.top q).toNat ≤ t.n ∧
    (s.ulink q ≤ t.n ∨ 0 < t.top (s.ulink q)) ∧
    (s.dlink q ≤ t.n ∨ 0 < t.top (s.dlink q)) ∧
    s.ulink q ∉ P ∧ s.dlink q ∉ P := by
  simp only [goodOut, nonSpacerB, Bool.and_eq_true, Bool.or_eq_true,
    decide_eq_true_eq, Bool.not_eq_true', decide_eq_false_iff_not] at h
  exact ⟨h.1.1.1.1, h.1.1.1.2, h.1.1.2, h.1.2, h.2⟩

theorem guide_of_upd (t s : Tbl) (E : List Nat) (u1 d1 x1 a b : Nat) (v : Int)
    (hg : GuideAgree t s E) (hx : x1 ≤ t.n)
    (hu : u1 ≤ t.n ∨ 0 < t.top u1) (hd : d1 ≤ t.n ∨ 0 < t.top d1) :
    GuideAgree t
      { s with dlink := updf s.dlink u1 a, ulink := updf s.ulink d1 b,
               top := updf s.top x1 v } E := by
  obtain ⟨hn, htp, hsp, hc⟩ := hg
  refine ⟨hn, ?_, ?_, hc⟩
  · intro j hj
    show updf s.top x1 v j = t.top j
    have hjx : j ≠ x1 := by omega
    rw [updf_ne _ _ _ _ hjx]
    exact htp j hj
  · intro j hj hsp0
    constructor
    · show updf s.ulink d1 b j = t.ulink j
      have hjd : j ≠ d1 := by
        intro he
        rcases hd with h | h
        · omega
        · rw [← he] at h
          omega
      rw [updf_ne _ _ _ _ hjd]
      exact (hsp j hj hsp0).1
    · show updf s.dlink u1 a j = t.dlink j
      have hju : j ≠ u1 := by
        intro he
        rcases hu with h | h
        · omega
        · rw [← he] at h
          omega
      rw [updf_ne _ _ _ _ hju]
      exact (hsp j hj hsp0).2

theorem orbit_of_upd (t s : Tbl) (P : List Nat) (u1 d1 x1 a b : Nat) (v : Int)
    (ho : OrbitAgree t s P) (hu : u1 ∉ P) (hd : d1 ∉ P) :
    OrbitAgree t
      { s with dlink := updf s.dlink u1 a, ulink := updf s.ulink d1 b,
               top := updf s.top x1 v } P := by
  intro j hj
  constructor
  · show updf s.ulink d1 b j = t.ulink j
    have hjd : j ≠ d1 := fun he => hd (he ▸ hj)
    rw [updf_ne _ _ _ _ hjd]
    exact (ho j hj).1
  · show updf s.dlink u1 a j = t.dlink j
    have hju : j ≠ u1 := fun he => hu (he ▸ hj)
    rw [updf_ne _ _ _ _ hju]
    exact (ho j hj).2

theorem spliceOut_guide (t : Tbl) (E P : List Nat) (s : Tbl) (q : Nat)
    (hg : GuideAgree t s E) (ho : goodOut t P s q = true) :
    GuideAgree t (spliceOut s q) E := by
  obtain ⟨hx, hu, hd, _, _⟩ := goodOut_unpack t P s q ho
  exact guide_of_upd t s E _ _ _ _ _ _ hg hx hu hd

theorem spliceOut_orbit (t : Tbl) (E P : List Nat) (s : Tbl) (q : Nat)
    (ho : OrbitAgree t s P) (hg : goodOut t P s q = true) :
    OrbitAgree t (spliceOut s q) P := by
  obtain ⟨_, _, _, hu, hd⟩ := goodOut_unpack t P s q hg
  exact orbit_of_upd t s P _ _ _ _ _ _ ho hu hd

theorem spliceIn_guide (t : Tbl) (E P : List Nat) (s : Tbl) (q : Nat)
    (hg : GuideAgree t s E) (ho : goodOut t P s q = true) :
    GuideAgree t (spliceIn s q) E := by
  obtain ⟨hx, hu, hd, _, _⟩ := goodOut_unpack t P s q ho
  exact guide_of_upd t s E _ _ _ _ _ _ hg hx hu hd

theorem spliceIn_orbit (t : Tbl) (E P : List Nat) (s : Tbl) (q : Nat)
    (ho : OrbitAgree t s P) (hg : goodOut t P s q = true) :
    OrbitAgree t (spliceIn s q) P := by
  obtain ⟨_, _, _, hu, hd⟩ := goodOut_unpack t P s q hg
  exact orbit_of_upd t s P _ _ _ _ _ _ ho hu hd

theorem outSeq_guide (t : Tbl) (E P : List Nat) :
    ∀ (ms : List Nat) (s : Tbl), GuideAgree t s E → okSeq t P s ms = true →
      GuideAgree t (outSeq s ms) E := by
  intro ms
  induction ms with
  | nil => intro s hg _; exact hg
  | cons q qs ih =>
      intro s hg hok
      simp only [okSeq, Bool.and_eq_true] at hok
      exact ih (spliceOut s q) (spliceOut_guide t E P s q hg hok.1) hok.2

theorem outSeq_orbit (t : Tbl) (E P : List Nat) :
    ∀ (ms : List Nat) (s : Tbl), OrbitAgree t s P → okSeq t P s ms = true →
      OrbitAgree t (outSeq s ms) P := by
  intro ms
  induction ms with
  | nil => intro s hg _; exact hg
  | cons q qs ih =>
      intro s hg hok
      simp only [okSeq, Bool.and_eq_true] at hok
      exact ih (spliceOut s q) (spliceOut_orbit t E P s q hg hok.1) hok.2

theorem inSeq_guide (t : Tbl) (E P : List Nat) :
    ∀ (ms : List Nat) (s : Tbl), GuideAgree t s E → okSeqIn t P s ms = true →
      GuideAgree t (inSeq s ms) E := by
  intro ms
  induction ms with
  | nil => intro s hg _; exact hg
  | cons q qs ih =>
      intro s hg hok
      simp only [okSeqIn, Bool.and_eq_true] at hok
      exact ih (spliceIn s q) (spliceIn_guide t E P s q hg hok.1) hok.2

theorem inSeq_orbit (t : Tbl) (E P : List Nat) :
    ∀ (ms : List Nat) (s : Tbl), OrbitAgree t s P → okSeqIn t P s ms = true →
      OrbitAgree t (inSeq s ms) P := by
  intro ms
  induction ms with
  | nil => intro s hg _; exact hg
  | cons q qs ih =>
      intro s hg hok
      simp only [okSeqIn, Bool.and_eq_true] at hok
      exact ih (spliceIn s q) (spliceIn_orbit t E P s q hg hok.1) hok.2

theorem okSeq_append (t : Tbl) (P : List Nat) :
    ∀ (l1 l2 : List Nat) (s : Tbl),
      okSeq t P s (l1 ++ l2) = (okSeq t P s l1 && okSeq t P (outSeq s l1) l2) := by
  intro l1
  induction l1 with
  | nil => intro l2 s; simp [okSeq, outSeq]
  | cons q qs ih =>
      intro l2 s
      simp only [List.cons_append, okSeq, outSeq]
      rw [show qs.append l2 = qs ++ l2 from rfl, ih, Bool.and_assoc]

theorem okSeqIn_append (t : Tbl) (P : List Nat) :
    ∀ (l1 l2 : List Nat) (s : Tbl),
      okSeqIn t P s (l1 ++ l2) = (okSeqIn t P s l1 && okSeqIn t P (inSeq s l1) l2) := by
  intro l1
  induction l1 with
  | nil => intro l2 s; simp [okSeqIn, inSeq]
  | cons q qs ih =>
      intro l2 s
      simp only [List.cons_append, okSeqIn, inSeq]
      rw [show qs.append l2 = qs ++ l2 from rfl, ih, Bool.and_assoc]

theorem outSeq_llink : ∀ (ms : List Nat) (s : Tbl), (outSeq s ms).llink = s.llink := by
  intro ms
  induction ms with
  | nil => intro s; rfl
  | cons q qs ih => intro s; exact ih (spliceOut s q)

theorem outSeq_rlink : ∀ (ms : List Nat) (s : Tbl), (outSeq s ms).rlink = s.rlink := by
  intro ms
  induction ms with
  | nil => intro s; rfl
  | cons q qs ih => intro s; exact ih (spliceOut s q)

theorem outSeq_color : ∀ (ms : List Nat) (s : Tbl), (outSeq s ms).color = s.color := by
  intro ms
  induction ms with
  | nil => intro s; rfl
  | cons q qs ih => intro s; exact ih (spliceOut s q)

theorem inSeq_color : ∀ (ms : List Nat) (s : Tbl), (inSeq s ms).color = s.color := by
  intro ms
  induction ms with
  | nil => intro s; rfl
  | cons q qs ih => intro s; exact ih (spliceIn s q)

/-- hide's loop on any guide-agreeing state performs exactly the
splice-outs of the pristine walk's unabsorbed nodes. -/
theorem hideAux_outSeq (t : Tbl) (E P : List Nat) (p : Nat) :
    ∀ (f : Nat) (q : Nat) (ms : List Nat) (s : Tbl),
      hWalkAux t p f q = some ms →
      GuideAgree t s E →
      (∀ r ∈ ms, r ∉ E) →
      okSeq t P s (filtC t ms) = true →
      hideAux p f s q = some (outSeq s (filtC t ms)) := by
  intro f
  induction f with
  | zero => intro q ms s hw _ _ _; simp [hWalkAux] at hw
  | succ f ih =>
      intro q ms s hw hg hE hok
      simp only [hWalkAux] at hw
      by_cases hqp : q = p
      · rw [if_pos hqp] at hw
        injection hw with hw
        subst hw
        simp only [hideAux, if_pos hqp]
        rfl
      · rw [if_neg hqp] at hw
        by_cases hqn : q ≤ t.n
        · rw [if_pos hqn] at hw
          exact absurd hw (by simp)
        · rw [if_neg hqn] at hw
          have hq : t.n < q := Nat.lt_of_not_le hqn
          have htq : s.top q = t.top q := hg.2.1 q hq
          by_cases hsp : t.top q ≤ 0
          · rw [if_pos hsp] at hw
            have hul : s.ulink q = t.ulink q := (hg.2.2.1 q hq hsp).1
            have hstep : hideStep s q = (s, t.ulink q) := by
              simp only [hideStep]
              rw [htq, hul, if_pos hsp]
            simp only [hideAux, if_neg hqp, hstep]
            exact ih (t.ulink q) ms s hw hg hE hok
          · rw [if_neg hsp] at hw
            have hpos : (0 : Int) < t.top q := lt_of_not_le hsp
            rw [Option.map_eq_some'] at hw
            obtain ⟨ms', hms', hcons⟩ := hw
            subst hcons
            have hqE : q ∉ E := hE q (List.mem_cons_self q ms')
            have hcq : s.color q = t.color q := hg.2.2.2 q hqE
            have hE' : ∀ r ∈ ms', r ∉ E := fun r hr =>
              hE r (List.mem_cons_of_mem q hr)
            by_cases hcol : (0 : Int) ≤ t.color q
            · have hfq : filtC t (q :: ms') = q :: filtC t ms' := by
                simp [filtC, hcol]
              rw [hfq] at hok ⊢
              simp only [okSeq, Bool.and_eq_true] at hok
              have hstep : hideStep s q = (spliceOut s q, q + 1) := by
                simp only [hideStep]
                rw [htq, hcq, if_neg (not_le.mpr hpos), if_pos hcol]
              simp only [hideAux, if_neg hqp, hstep]
              show hideAux p f (spliceOut s q) (q + 1) =
                some (outSeq (spliceOut s q) (filtC t ms'))
              exact ih (q + 1) ms' (spliceOut s q) hms'
                (spliceOut_guide t E P s q hg hok.1) hE' hok.2
            · have hfq : filtC t (q :: ms') = filtC t ms' := by
                simp [filtC, hcol]
              rw [hfq] at hok ⊢
              have hstep : hideStep s q = (s, q + 1) := by
                simp only [hideStep]
                rw [htq, hcq, if_neg (not_le.mpr hpos), if_neg hcol]
              simp only [hideAux, if_neg hqp, hstep]
              exact ih (q + 1) ms' s hms' hg hE' hok

/-- unhide's loop with minimax off performs exactly the splice-ins of the
pristine down-walk's unabsorbed nodes. -/
theorem unhideAux_inSeq (t : Tbl) (E P : List Nat) (p : Nat) :
    ∀ (f : Nat) (q : Nat) (ms : List Nat) (s : Tbl),
      dWalkAux t p f q = some ms →
      GuideAgree t s E →
      (∀ r ∈ ms, r ∉ E) →
      okSeqIn t P s (filtC t ms) = true →
      unhideAux false p f s q = some (inSeq s (filtC t ms)) := by
  intro f
  induction f with
  | zero => intro q ms s hw _ _ _; simp [dWalkAux] at hw
  | succ f ih =>
      intro q ms s hw hg hE hok
      simp only [dWalkAux] at hw
      by_cases hqp : q = p
      · rw [if_pos hqp] at hw
        injection hw with hw
        subst hw
        simp only [unhideAux, if_pos hqp]
        rfl
      · rw [if_neg hqp] at hw
        by_cases hqn : q ≤ t.n
        · rw [if_pos hqn] at hw
          exact absurd hw (by simp)
        · rw [if_neg hqn] at hw
          have hq : t.n < q := Nat.lt_of_not_le hqn
          have htq : s.top q = t.top q := hg.2.1 q hq
          by_cases hsp : t.top q ≤ 0
          · rw [if_pos hsp] at hw
            have hdl : s.dlink q = t.dlink q := (hg.2.2.1 q hq hsp).2
            have hstep : unhideStep false s q = (s, t.dlink q) := by
              simp only [unhideStep]
              rw [htq, hdl, if_pos hsp]
            simp only [unhideAux, if_neg hqp, hstep]
            exact ih (t.dlink q) ms s hw hg hE hok
          · rw [if_neg hsp] at hw
            have hpos : (0 : Int) < t.top q := lt_of_not_le hsp
            rw [Option.map_eq_some'] at hw
            obtain ⟨ms', hms', hcons⟩ := hw
            subst hcons
            have hqE : q ∉ E := hE q (List.mem_cons_self q ms')
            have hcq : s.color q = t.color q := hg.2.2.2 q hqE
            have hE' : ∀ r ∈ ms', r ∉ E := fun r hr =>
              hE r (List.mem_cons_of_mem q hr)
            by_cases hcol : (0 : Int) ≤ t.color q
            · have hfq : filtC t (q :: ms') = q :: filtC t ms' := by
                simp [filtC, hcol]
              rw [hfq] at hok ⊢
              simp only [okSeqIn, Bool.and_eq_true] at hok
              have hstep : unhideStep false s q = (spliceIn s q, q - 1) := by
                simp only [unhideStep, Bool.false_eq_true, false_and, if_false]
                rw [htq, hcq, if_neg (not_le.mpr hpos), if_pos hcol]
                rfl
              simp only [unhideAux, if_neg hqp, hstep]
              show unhideAux false p f (spliceIn s q) (q - 1) =
                some (inSeq (spliceIn s q) (filtC t ms'))
              exact ih (q - 1) ms' (spliceIn s q) hms'
                (spliceIn_guide t E P s q hg hok.1) hE' hok.2
            · have hfq : filtC t (q :: ms') = filtC t ms' := by
                simp [filtC, hcol]
              rw [hfq] at hok ⊢
              have hstep : unhideStep false s q = (s, q - 1) := by
                simp only [unhideStep, Bool.false_eq_true, false_and, if_false]
                rw [htq, hcq, if_neg (not_le.mpr hpos), if_neg hcol]
              simp only [unhideAux, if_neg hqp, hstep]
              exact ih (q - 1) ms' s hms' hg hE' hok

theorem flatF_cons (t : Tbl) (ms : List Nat) (mss : List (List Nat)) :
    flatF t (ms :: mss) = filtC t ms ++ flatF t mss := by
  simp [flatF]

/-- cover's loop over an option-coherent vertical list is exactly the
concatenated splice-out sequence of its options' mates. -/
theorem coverAux_outSeq (t : Tbl) (E P : List Nat) (i fl : Nat) :
    ∀ (g : Nat) (p : Nat) (os : List Nat) (mss : List (List Nat)) (s : Tbl),
      vWalkDAux t i g p = some os →
      List.Forall₂ (fun r ms => hWalkAux t r fl (r + 1) = some ms) os mss →
      (∀ ms ∈ mss, ∀ r ∈ ms, r ∉ E) →
      (∀ r ∈ os, r ∈ P) →
      GuideAgree t s E → OrbitAgree t s P →
      okSeq t P s (flatF t mss) = true →
      coverAux fl i g s p = some (outSeq s (flatF t mss)) := by
  intro g
  induction g with
  | zero => intro p os mss s hv _ _ _ _ _ _; simp [vWalkDAux] at hv
  | succ g ih =>
      intro p os mss s hv hws hE hP hg ho hok
      simp only [vWalkDAux] at hv
      by_cases hpi : p = i
      · rw [if_pos hpi] at hv
        injection hv with hv
        subst hv
        cases hws
        simp only [coverAux, if_pos hpi]
        rfl
      · rw [if_neg hpi] at hv
        by_cases hpn : p ≤ t.n
        · rw [if_pos hpn] at hv
          exact absurd hv (by simp)
        · rw [if_neg hpn] at hv
          rw [Option.map_eq_some'] at hv
          obtain ⟨os', hos', hcons⟩ := hv
          subst hcons
          cases hws with
          | cons hhd htl =>
              rename_i ms mss'
              rw [flatF_cons] at hok ⊢
              rw [okSeq_append, Bool.and_eq_true] at hok
              have hhide : hide fl s p = some (outSeq s (filtC t ms)) :=
                hideAux_outSeq t E P p fl (p + 1) ms s hhd hg
                  (hE ms (List.mem_cons_self ms mss')) hok.1
              simp only [coverAux, if_neg hpi, Option.bind_eq_bind, hhide,
                Option.some_bind]
              have hg1 : GuideAgree t (outSeq s (filtC t ms)) E :=
                outSeq_guide t E P (filtC t ms) s hg hok.1
              have ho1 : OrbitAgree t (outSeq s (filtC t ms)) P :=
                outSeq_orbit t E P (filtC t ms) s ho hok.1
              have hdl : (outSeq s (filtC t ms)).dlink p = t.dlink p :=
                (ho1 p (hP p (List.mem_cons_self p os'))).2
              rw [hdl, outSeq_append]
              exact ih (t.dlink p) os' mss' (outSeq s (filtC t ms)) hos' htl
                (fun m hm r hr => hE m (List.mem_cons_of_mem ms hm) r hr)
                (fun r hr => hP r (List.mem_cons_of_mem p hr)) hg1 ho1 hok.2

/-- uncover's loop with minimax off is exactly the concatenated splice-in
sequence of its options' mates, bottom-up. -/
theorem uncoverAux_inSeq (t : Tbl) (E P : List Nat) (i fl : Nat) :
    ∀ (g : Nat) (p : Nat) (rs : List Nat) (msrs : List (List Nat)) (s : Tbl),
      vWalkUAux t i g p = some rs →
      List.Forall₂ (fun r ms => dWalkAux t r fl (r - 1) = some ms) rs msrs →
      (∀ ms ∈ msrs, ∀ r ∈ ms, r ∉ E) →
      (∀ r ∈ rs, r ∈ P) →
      GuideAgree t s E → OrbitAgree t s P →
      okSeqIn t P s (flatF t msrs) = true →
      uncoverAux fl false i g s p = some (inSeq s (flatF t msrs)) := by
  intro g
  induction g with
  | zero => intro p rs msrs s hv _ _ _ _ _ _; simp [vWalkUAux] at hv
  | succ g ih =>
      intro p rs msrs s hv hws hE hP hg ho hok
      simp only [vWalkUAux] at hv
      by_cases hpi : p = i
      · rw [if_pos hpi] at hv
        injection hv with hv
        subst hv
        cases hws
        simp only [uncoverAux, if_pos hpi]
        rfl
      · rw [if_neg hpi] at hv
        by_cases hpn : p ≤ t.n
        · rw [if_pos hpn] at hv
          exact absurd hv (by simp)
        · rw [if_neg hpn] at hv
          rw [Option.map_eq_some'] at hv
          obtain ⟨rs', hrs', hcons⟩ := hv
          subst hcons
          cases hws with
          | cons hhd htl =>
              rename_i ms msrs'
              rw [flatF_cons] at hok ⊢
              rw [okSeqIn_append, Bool.and_eq_true] at hok
              have hunhide : unhide fl false s p = some (inSeq s (filtC t ms)) :=
                unhideAux_inSeq t E P p fl (p - 1) ms s hhd hg
                  (hE ms (List.mem_cons_self ms msrs')) hok.1
              simp only [uncoverAux, if_neg hpi, Option.bind_eq_bind, hunhide,
                Option.some_bind]
              have hg1 : GuideAgree t (inSeq s (filtC t ms)) E :=
                inSeq_guide t E P (filtC t ms) s hg hok.1
              have ho1 : OrbitAgree t (inSeq s (filtC t ms)) P :=
                inSeq_orbit t E P (filtC t ms) s ho hok.1
              have hul : (inSeq s (filtC t ms)).ulink p = t.ulink p :=
                (ho1 p (hP p (List.mem_cons_self p rs'))).1
              rw [hul, inSeq_append]
              exact ih (t.ulink p) rs' msrs' (inSeq s (filtC t ms)) hrs' htl
                (fun m hm r hr => hE m (List.mem_cons_of_mem ms hm) r hr)
                (fun r hr => hP r (List.mem_cons_of_mem p hr)) hg1 ho1 hok.2

/-- Unlinking and relinking an item header cancel when the header is
properly doubly linked and not alone in its list. -/
theorem hdrIn_hdrOut (t : Tbl) (i : Nat)
    (hl : t.llink i ≠ i) (hr : t.rlink i ≠ i)
    (hlr : t.rlink (t.llink i) = i) (hrl : t.llink (t.rlink i) = i) :
    hdrIn (hdrOut t i) i = t := by
  have hli : (hdrOut t i).llink i = t.llink i := by
    show updf t.llink (t.rlink i) (t.llink i) i = t.llink i
    rw [updf_ne _ _ _ _ (Ne.symm hr)]
  have hri : (hdrOut t i).rlink i = t.rlink i := by
    show updf t.rlink (t.llink i) (t.rlink i) i = t.rlink i
    rw [updf_ne _ _ _ _ (Ne.symm hl)]
  have h1 : (hdrIn (hdrOut t i) i).rlink = t.rlink := by
    show updf (hdrOut t i).rlink ((hdrOut t i).llink i) i = t.rlink
    rw [hli]
    show updf (updf t.rlink (t.llink i) (t.rlink i)) (t.llink i) i = t.rlink
    rw [updf_absorb]
    nth_rewrite 2 [← hlr]
    rw [updf_self]
  have h2 : (hdrIn (hdrOut t i) i).llink = t.llink := by
    show updf (hdrOut t i).llink ((hdrOut t i).rlink i) i = t.llink
    rw [hri]
    show updf (updf t.llink (t.rlink i) (t.llink i)) (t.rlink i) i = t.llink
    rw [updf_absorb]
    nth_rewrite 2 [← hrl]
    rw [updf_self]
  have hfin : hdrIn (hdrOut t i) i =
      { t with rlink := (hdrIn (hdrOut t i) i).rlink,
               llink := (hdrIn (hdrOut t i) i).llink } := rfl
  rw [hfin, h1, h2]

theorem filtC_reverse (t : Tbl) (l : List Nat) :
    filtC t l.reverse = (filtC t l).reverse := by
  simp [filtC, List.filter_reverse]

theorem flatF_rev (t : Tbl) (mss : List (List Nat)) :
    flatF t ((mss.map List.reverse).reverse) = (flatF t mss).reverse := by
  simp only [flatF, List.map_reverse, List.map_map]
  rw [List.reverse_flatten]
  congr 1
  congr 1
  simp only [List.map_map]
  apply List.map_congr_left
  intro l _
  exact filtC_reverse t l

theorem forall2_rev {α β : Type} {R : α → β → Prop} :
    ∀ {l1 : List α} {l2 : List β}, List.Forall₂ R l1 l2 →
      List.Forall₂ R l1.reverse l2.reverse := fun h => List.rel_reverse h

theorem cover_eq (t : Tbl) (E : List Nat) (i fl : Nat) (os : List Nat)
    (mss : List (List Nat))
    (hv : vWalkDAux t i fl (t.dlink i) = some os)
    (hws : List.Forall₂ (fun r ms => hWalkAux t r fl (r + 1) = some ms) os mss)
    (hE : ∀ ms ∈ mss, ∀ r ∈ ms, r ∉ E)
    (hok : okSeq t (i :: os) t (flatF t mss) = true) :
    cover fl t i = some (hdrOut (outSeq t (flatF t mss)) i) := by
  have h := coverAux_outSeq t E (i :: os) i fl fl (t.dlink i) os mss t hv hws hE
    (fun r hr => List.mem_cons_of_mem i hr) (guideAgree_refl t E)
    (orbitAgree_refl t _) hok
  unfold cover
  rw [Option.bind_eq_bind, h, Option.some_bind]

/-- cover followed by uncover with minimax off restores the table exactly,
for any header whose vertical list is option-coherent: the walks succeed,
every spliced mate is doubly linked and clear of the list being covered,
and the header itself is properly linked horizontally. -/
theorem cover_uncover_eq (t : Tbl) (i fl : Nat) (os : List Nat)
    (mss : List (List Nat))
    (hv : vWalkDAux t i fl (t.dlink i) = some os)
    (hu : vWalkUAux t i fl (t.ulink i) = some os.reverse)
    (hws : List.Forall₂ (fun r ms => hWalkAux t r fl (r + 1) = some ms) os mss)
    (hds : List.Forall₂ (fun r ms => dWalkAux t r fl (r - 1) = some ms.reverse) os mss)
    (hok : okSeq t (i :: os) t (flatF t mss) = true)
    (hokIn : okSeqIn t (i :: os.reverse) (outSeq t (flatF t mss))
      ((flatF t mss).reverse) = true)
    (hchain : chainValid t (flatF t mss) = true)
    (hl : t.llink i ≠ i) (hr : t.rlink i ≠ i)
    (hlr : t.rlink (t.llink i) = i) (hrl : t.llink (t.rlink i) = i) :
    (cover fl t i).bind (fun s => uncover fl false s i) = some t := by
  have hc : cover fl t i = some (hdrOut (outSeq t (flatF t mss)) i) :=
    cover_eq t [] i fl os mss hv hws (fun _ _ r _ => List.not_mem_nil r) hok
  rw [hc, Option.some_bind]
  have e1 : (outSeq t (flatF t mss)).llink = t.llink := outSeq_llink _ t
  have e2 : (outSeq t (flatF t mss)).rlink = t.rlink := outSeq_rlink _ t
  have hdrCancel : hdrIn (hdrOut (outSeq t (flatF t mss)) i) i =
      outSeq t (flatF t mss) :=
    hdrIn_hdrOut (outSeq t (flatF t mss)) i (by rw [e1]; exact hl)
      (by rw [e2]; exact hr) (by rw [e1, e2]; exact hlr)
      (by rw [e2, e1]; exact hrl)
  have hA : OrbitAgree t (outSeq t (flatF t mss)) (i :: os) :=
    outSeq_orbit t [] (i :: os) (flatF t mss) t (orbitAgree_refl t _) hok
  have hgA : GuideAgree t (outSeq t (flatF t mss)) [] :=
    outSeq_guide t [] (i :: os) (flatF t mss) t (guideAgree_refl t _) hok
  have hoA : OrbitAgree t (outSeq t (flatF t mss)) (i :: os.reverse) := by
    intro j hj
    apply hA j
    simp only [List.mem_cons, List.mem_reverse] at hj ⊢
    exact hj
  have hul : (outSeq t (flatF t mss)).ulink i = t.ulink i :=
    (hA i (List.mem_cons_self i os)).1
  have hws' : List.Forall₂ (fun r ms => dWalkAux t r fl (r - 1) = some ms)
      os.reverse ((mss.map List.reverse).reverse) := by
    apply forall2_rev
    exact List.forall₂_map_right_iff.mpr hds
  have hok'' : okSeqIn t (i :: os.reverse) (outSeq t (flatF t mss))
      (flatF t ((mss.map List.reverse).reverse)) = true := by
    rw [flatF_rev]
    exact hokIn
  have hres := uncoverAux_inSeq t [] (i :: os.reverse) i fl fl (t.ulink i)
    os.reverse ((mss.map List.reverse).reverse) (outSeq t (flatF t mss)) hu hws'
    (fun _ _ r _ => List.not_mem_nil r)
    (fun r hr => List.mem_cons_of_mem i hr) hgA hoA hok''
  show (do
    let t0 ← if false then
      uncoverPre i fl (hdrOut (outSeq t (flatF t mss)) i)
        ((hdrOut (outSeq t (flatF t mss)) i).dlink i)
      else some (hdrOut (outSeq t (flatF t mss)) i)
    let t1 := hdrIn t0 i
    uncoverAux fl false i fl t1 (t1.ulink i)) = some t
  simp only [Bool.false_eq_true, if_false, Option.bind_eq_bind, Option.some_bind]
  rw [hdrCancel, hul, hres, flatF_rev]
  rw [inSeq_outSeq (flatF t mss) t hchain]

/-! ## C5: amended round trip -/

/-- C5 (amended): with minimax disabled, cover(i) followed immediately by
uncover(i) restores every working array exactly, provided the vertical
list of the active header i is option-coherent: the down and up walks of
i's list succeed and mirror each other, every option's hide walk
succeeds, each spliced mate is doubly linked at its moment and its
neighbor cells avoid both the spacer cells and i's own list, and i is
properly doubly linked horizontally. -/
theorem C5_roundtrip_under_coherence (t : Tbl) (i fl : Nat) (os : List Nat)
    (mss : List (List Nat))
    (hv : vWalkDAux t i fl (t.dlink i) = some os)
    (hu : vWalkUAux t i fl (t.ulink i) = some os.reverse)
    (hws : List.Forall₂ (fun r ms => hWalkAux t r fl (r + 1) = some ms) os mss)
    (hds : List.Forall₂ (fun r ms => dWalkAux t r fl (r - 1) = some ms.reverse) os mss)
    (hok : okSeq t (i :: os) t (flatF t mss) = true)
    (hokIn : okSeqIn t (i :: os.reverse) (outSeq t (flatF t mss))
      ((flatF t mss).reverse) = true)
    (hchain : chainValid t (flatF t mss) = true)
    (hl : t.llink i ≠ i) (hr : t.rlink i ≠ i)
    (hlr : t.rlink (t.llink i) = i) (hrl : t.llink (t.rlink i) = i) :
    (cover fl t i).bind (fun s => uncover fl false s i) = some t :=
  cover_uncover_eq t i fl os mss hv hu hws hds hok hokIn hchain hl hr hlr hrl

theorem C5_roundtrip_under_coherence_witness :
    (cover 30 toyT0 1).bind (fun s => uncover 30 false s 1) = some toyT0 :=
  C5_roundtrip_under_coherence toyT0 1 30 [7, 12, 17]
    [[8, 9, 10], [13, 14, 15], [18]]
    (by rfl) (by rfl)
    (List.Forall₂.cons (by rfl) (List.Forall₂.cons (by rfl)
      (List.Forall₂.cons (by rfl) List.Forall₂.nil)))
    (List.Forall₂.cons (by rfl) (List.Forall₂.cons (by rfl)
      (List.Forall₂.cons (by rfl) List.Forall₂.nil)))
    (by rfl) (by rfl) (by rfl)
    (by decide) (by decide) (by rfl) (by rfl)

/-! ## C6: purify/unpurify as mark and splice sequences -/

/-- purify's absorption mark on one node. -/
def pMark (s : Tbl) (q : Nat) : Tbl :=
  { s with color := updf s.color q (-1) }

/-- unpurify's restoration of one absorbed node to color c. -/
def uMark (c : Int) (s : Tbl) (q : Nat) : Tbl :=
  { s with color := updf s.color q c }

/-- purify's loop as a sequence of actions over the orbit paired with its
options' hide walks: mark the same-colored node, or splice out the option's
unabsorbed mates. Branch decisions are taken on the pristine table t. -/
def pActs (t : Tbl) (c : Int) : List (Nat × List Nat) → Tbl → Tbl
  | [], s => s
  | (q, ms) :: rest, s =>
      pActs t c rest (if t.color q = c then pMark s q else outSeq s (filtC t ms))

/-- unpurify's loop as the inverse action sequence (each element carries
the down-walk list of its option). -/
def uActs (t : Tbl) (c : Int) : List (Nat × List Nat) → Tbl → Tbl
  | [], s => s
  | (q, ms) :: rest, s =>
      uActs t c rest (if t.color q = c then uMark c s q else inSeq s (filtC t ms))

/-- Well-placedness of every splice of the purify phase, at its moment. -/
def pOk (t : Tbl) (P : List Nat) (c : Int) : Tbl → List (Nat × List Nat) → Bool
  | _, [] => true
  | s, (q, ms) :: rest =>
      if t.color q = c then pOk t P c (pMark s q) rest
      else okSeq t P s (filtC t ms) && pOk t P c (outSeq s (filtC t ms)) rest

/-- Well-placedness of every splice of the unpurify phase, at its moment. -/
def uOk (t : Tbl) (P : List Nat) (c : Int) : Tbl → List (Nat × List Nat) → Bool
  | _, [] => true
  | s, (q, ms) :: rest =>
      if t.color q = c then uOk t P c (uMark c s q) rest
      else okSeqIn t P s (filtC t ms) && uOk t P c (inSeq s (filtC t ms)) rest

/-- Exact invertibility data of the purify phase: a marked node indeed
carried color c, and each hidden option's mates were doubly linked. -/
def pValid (t : Tbl) (c : Int) : Tbl → List (Nat × List Nat) → Bool
  | _, [] => true
  | s, (q, ms) :: rest =>
      if t.color q = c then (s.color q == c) && pValid t c (pMark s q) rest
      else chainValid s (filtC t ms) && pValid t c (outSeq s (filtC t ms)) rest

/-- Reversed action list: orbit reversed, each walk list reversed. -/
def revZ : List (Nat × List Nat) → List (Nat × List Nat)
  | [] => []
  | (q, ms) :: rest => revZ rest ++ [(q, ms.reverse)]

theorem pMark_guide (t s : Tbl) (E : List Nat) (q : Nat) (hq : q ∈ E)
    (hg : GuideAgree t s E) : GuideAgree t (pMark s q) E := by
  obtain ⟨hn, htp, hsp, hc⟩ := hg
  refine ⟨hn, htp, hsp, ?_⟩
  intro j hj
  show updf s.color q (-1) j = t.color j
  have hjq : j ≠ q := fun he => hj (he ▸ hq)
  rw [updf_ne _ _ _ _ hjq]
  exact hc j hj

theorem uMark_guide (t s : Tbl) (E : List Nat) (c : Int) (q : Nat) (hq : q ∈ E)
    (hg : GuideAgree t s E) : GuideAgree t (uMark c s q) E := by
  obtain ⟨hn, htp, hsp, hc⟩ := hg
  refine ⟨hn, htp, hsp, ?_⟩
  intro j hj
  show updf s.color q c j = t.color j
  have hjq : j ≠ q := fun he => hj (he ▸ hq)
  rw [updf_ne _ _ _ _ hjq]
  exact hc j hj

theorem pMark_orbit (t s : Tbl) (P : List Nat) (q : Nat)
    (ho : OrbitAgree t s P) : OrbitAgree t (pMark s q) P := ho

theorem uMark_orbit (t s : Tbl) (P : List Nat) (c : Int) (q : Nat)
    (ho : OrbitAgree t s P) : OrbitAgree t (uMark c s q) P := ho

theorem uActs_append (t : Tbl) (c : Int) :
    ∀ (l1 l2 : List (Nat × List Nat)) (s : Tbl),
      uActs t c (l1 ++ l2) s = uActs t c l2 (uActs t c l1 s) := by
  intro l1
  induction l1 with
  | nil => intro l2 s; rfl
  | cons a rest ih =>
      intro l2 s
      obtain ⟨q, ms⟩ := a
      simp only [List.cons_append, uActs]
      exact ih l2 _

theorem revZ_zip : ∀ (os : List Nat) (mss : List (List Nat)),
    os.length = mss.length →
    revZ (os.zip mss) = (os.reverse).zip ((mss.map List.reverse).reverse) := by
  intro os
  induction os with
  | nil => intro mss _; simp [revZ]
  | cons q os' ih =>
      intro mss hlen
      cases mss with
      | nil => simp at hlen
      | cons ms mss' =>
          simp only [List.zip_cons_cons, revZ, List.reverse_cons, List.map_cons,
            List.map_reverse]
          rw [show List.zipWith Prod.mk os' mss' = os'.zip mss' from rfl,
            ih mss' (by simpa using hlen)]
          rw [List.zip_append (by
            simp only [List.length_reverse, List.length_map]
            simpa using hlen)]
          rfl

/-- The unpurify action sequence over the reversed orbit undoes the purify
action sequence exactly. -/
theorem uActs_pActs (t : Tbl) (c : Int) :
    ∀ (zs : List (Nat × List Nat)) (s : Tbl),
      pValid t c s zs = true →
      uActs t c (revZ zs) (pActs t c zs s) = s := by
  intro zs
  induction zs with
  | nil => intro s _; rfl
  | cons a rest ih =>
      intro s hv
      obtain ⟨q, ms⟩ := a
      simp only [pValid] at hv
      simp only [revZ, pActs]
      rw [uActs_append]
      by_cases hcq : t.color q = c
      · rw [if_pos hcq] at hv ⊢
        simp only [if_pos hcq, Bool.and_eq_true, beq_iff_eq] at hv
        rw [ih (pMark s q) hv.2]
        simp only [uActs, if_pos hcq]
        show { s with color := updf (updf s.color q (-1)) q c } = s
        rw [updf_absorb, ← hv.1, updf_self]
      · rw [if_neg hcq] at hv ⊢
        simp only [if_neg hcq, Bool.and_eq_true] at hv
        rw [ih (outSeq s (filtC t ms)) hv.2]
        simp only [uActs, if_neg hcq]
        show inSeq (outSeq s (filtC t ms)) (filtC t ms.reverse) = s
        rw [filtC_reverse]
        exact inSeq_outSeq (filtC t ms) s hv.1

/-- purify's loop over an option-coherent orbit is exactly its action
sequence: marks on same-colored nodes, splice-outs elsewhere. -/
theorem purifyAux_pActs (t : Tbl) (E P : List Nat) (c : Int) (i fl : Nat) :
    ∀ (g : Nat) (p : Nat) (os : List Nat) (mss : List (List Nat)) (s : Tbl),
      vWalkDAux t i g p = some os →
      List.Forall₂ (fun r ms => hWalkAux t r fl (r + 1) = some ms) os mss →
      (∀ ms ∈ mss, ∀ r ∈ ms, r ∉ E) →
      (∀ r ∈ os, r ∈ P) →
      (∀ r ∈ os, r ∈ E) →
      os.Nodup →
      (∀ r ∈ os, s.color r = t.color r) →
      GuideAgree t s E → OrbitAgree t s P →
      pOk t P c s (os.zip mss) = true →
      purifyAux fl c i g s p = some (pActs t c (os.zip mss) s) := by
  intro g
  induction g with
  | zero => intro p os mss s hv _ _ _ _ _ _ _ _ _; simp [vWalkDAux] at hv
  | succ g ih =>
      intro p os mss s hv hws hE hP hEo hnd hinv hg ho hok
      simp only [vWalkDAux] at hv
      by_cases hpi : p = i
      · rw [if_pos hpi] at hv
        injection hv with hv
        subst hv
        cases hws
        simp only [purifyAux, if_pos hpi]
        rfl
      · rw [if_neg hpi] at hv
        by_cases hpn : p ≤ t.n
        · rw [if_pos hpn] at hv
          exact absurd hv (by simp)
        · rw [if_neg hpn] at hv
          rw [Option.map_eq_some'] at hv
          obtain ⟨os', hos', hcons⟩ := hv
          subst hcons
          cases hws with
          | cons hhd htl =>
              rename_i ms mss'
              have hc1 : s.color p = t.color p :=
                hinv p (List.mem_cons_self p os')
              have hpP : p ∈ P := hP p (List.mem_cons_self p os')
              have hpE : p ∈ E := hEo p (List.mem_cons_self p os')
              have hnd' : os'.Nodup := (List.nodup_cons.mp hnd).2
              have hpo : p ∉ os' := (List.nodup_cons.mp hnd).1
              simp only [List.zip_cons_cons, pOk] at hok
              simp only [List.zip_cons_cons, pActs]
              simp only [purifyAux, if_neg hpi, hc1]
              by_cases hcc : t.color p = c
              · simp only [if_pos hcc] at hok ⊢
                have hdl : s.dlink p = t.dlink p := (ho p hpP).2
                rw [hdl]
                refine ih (t.dlink p) os' mss' (pMark s p) hos' htl
                  (fun m hm r hr => hE m (List.mem_cons_of_mem ms hm) r hr)
                  (fun r hr => hP r (List.mem_cons_of_mem p hr))
                  (fun r hr => hEo r (List.mem_cons_of_mem p hr)) hnd'
                  ?_ (pMark_guide t s E p hpE hg) (pMark_orbit t s P p ho) hok
                intro r hr
                show updf s.color p (-1) r = t.color r
                rw [updf_ne _ _ _ _ (fun he => hpo (by rw [← he]; exact hr))]
                exact hinv r (List.mem_cons_of_mem p hr)
              · simp only [if_neg hcc] at hok ⊢
                rw [Bool.and_eq_true] at hok
                have hhide : hide fl s p = some (outSeq s (filtC t ms)) :=
                  hideAux_outSeq t E P p fl (p + 1) ms s hhd hg
                    (hE ms (List.mem_cons_self ms mss')) hok.1
                simp only [Option.bind_eq_bind, hhide, Option.some_bind]
                have hg1 : GuideAgree t (outSeq s (filtC t ms)) E :=
                  outSeq_guide t E P (filtC t ms) s hg hok.1
                have ho1 : OrbitAgree t (outSeq s (filtC t ms)) P :=
                  outSeq_orbit t E P (filtC t ms) s ho hok.1
                have hdl : (outSeq s (filtC t ms)).dlink p = t.dlink p :=
                  (ho1 p hpP).2
                rw [hdl]
                refine ih (t.dlink p) os' mss' (outSeq s (filtC t ms)) hos' htl
                  (fun m hm r hr => hE m (List.mem_cons_of_mem ms hm) r hr)
                  (fun r hr => hP r (List.mem_cons_of_mem p hr))
                  (fun r hr => hEo r (List.mem_cons_of_mem p hr)) hnd'
                  ?_ hg1 ho1 hok.2
                intro r hr
                rw [outSeq_color]
                exact hinv r (List.mem_cons_of_mem p hr)

/-- unpurify's loop with minimax off is exactly the inverse action
sequence over the reversed orbit. -/
theorem unpurifyAux_uActs (t : Tbl) (E P : List Nat) (c : Int) (i fl : Nat) :
    ∀ (g : Nat) (p : Nat) (rs : List Nat) (mss : List (List Nat)) (s : Tbl),
      vWalkUAux t i g p = some rs →
      List.Forall₂ (fun r ms => dWalkAux t r fl (r - 1) = some ms) rs mss →
      (∀ ms ∈ mss, ∀ r ∈ ms, r ∉ E) →
      (∀ r ∈ rs, r ∈ P) →
      (∀ r ∈ rs, r ∈ E) →
      rs.Nodup →
      (∀ r ∈ rs, (t.color r = c → s.color r < 0) ∧
        (t.color r ≠ c → s.color r = t.color r)) →
      (∀ r ∈ rs, 0 ≤ t.color r) →
      GuideAgree t s E → OrbitAgree t s P →
      uOk t P c s (rs.zip mss) = true →
      unpurifyAux fl false c i g s p = some (uActs t c (rs.zip mss) s) := by
  intro g
  induction g with
  | zero => intro p rs mss s hv _ _ _ _ _ _ _ _ _ _; simp [vWalkUAux] at hv
  | succ g ih =>
      intro p rs mss s hv hws hE hP hEo hnd hinv hcol hg ho hok
      simp only [vWalkUAux] at hv
      by_cases hpi : p = i
      · rw [if_pos hpi] at hv
        injection hv with hv
        subst hv
        cases hws
        simp only [unpurifyAux, if_pos hpi]
        rfl
      · rw [if_neg hpi] at hv
        by_cases hpn : p ≤ t.n
        · rw [if_pos hpn] at hv
          exact absurd hv (by simp)
        · rw [if_neg hpn] at hv
          rw [Option.map_eq_some'] at hv
          obtain ⟨rs', hrs', hcons⟩ := hv
          subst hcons
          cases hws with
          | cons hhd htl =>
              rename_i ms mss'
              have hpP : p ∈ P := hP p (List.mem_cons_self p rs')
              have hpE : p ∈ E := hEo p (List.mem_cons_self p rs')
              have hnd' : rs'.Nodup := (List.nodup_cons.mp hnd).2
              have hpo : p ∉ rs' := (List.nodup_cons.mp hnd).1
              have hinvp := hinv p (List.mem_cons_self p rs')
              have hcolp := hcol p (List.mem_cons_self p rs')
              simp only [List.zip_cons_cons, uOk] at hok
              simp only [List.zip_cons_cons, uActs]
              simp only [unpurifyAux, if_neg hpi, Option.bind_eq_bind]
              by_cases hcc : t.color p = c
              · have hneg : s.color p < 0 := hinvp.1 hcc
                rw [if_pos hneg]
                simp only [Option.some_bind, Bool.false_eq_true, false_and,
                  if_false]
                simp only [if_pos hcc] at hok ⊢
                have hul : s.ulink p = t.ulink p := (ho p hpP).1
                rw [hul]
                refine ih (t.ulink p) rs' mss' (uMark c s p) hrs' htl
                  (fun m hm r hr => hE m (List.mem_cons_of_mem ms hm) r hr)
                  (fun r hr => hP r (List.mem_cons_of_mem p hr))
                  (fun r hr => hEo r (List.mem_cons_of_mem p hr)) hnd'
                  ?_ (fun r hr => hcol r (List.mem_cons_of_mem p hr))
                  (uMark_guide t s E c p hpE hg) (uMark_orbit t s P c p ho) hok
                intro r hr
                have hrc : updf s.color p c r = s.color r :=
                  updf_ne _ _ _ _ (fun he => hpo (by rw [← he]; exact hr))
                constructor
                · intro h1
                  show updf s.color p c r < 0
                  rw [hrc]
                  exact (hinv r (List.mem_cons_of_mem p hr)).1 h1
                · intro h2
                  show updf s.color p c r = t.color r
                  rw [hrc]
                  exact (hinv r (List.mem_cons_of_mem p hr)).2 h2
              · have hsc : s.color p = t.color p := hinvp.2 hcc
                have hge : ¬ s.color p < 0 := by
                  rw [hsc]
                  omega
                rw [if_neg hge]
                simp only [if_neg hcc] at hok ⊢
                rw [Bool.and_eq_true] at hok
                have hunhide : unhide fl false s p = some (inSeq s (filtC t ms)) :=
                  unhideAux_inSeq t E P p fl (p - 1) ms s hhd hg
                    (hE ms (List.mem_cons_self ms mss')) hok.1
                rw [hunhide]
                simp only [Option.some_bind, Bool.false_eq_true, false_and,
                  if_false]
                have hg1 : GuideAgree t (inSeq s (filtC t ms)) E :=
                  inSeq_guide t E P (filtC t ms) s hg hok.1
                have ho1 : OrbitAgree t (inSeq s (filtC t ms)) P :=
                  inSeq_orbit t E P (filtC t ms) s ho hok.1
                have hul : (inSeq s (filtC t ms)).ulink p = t.ulink p :=
                  (ho1 p hpP).1
                rw [hul]
                refine ih (t.ulink p) rs' mss' (inSeq s (filtC t ms)) hrs' htl
                  (fun m hm r hr => hE m (List.mem_cons_of_mem ms hm) r hr)
                  (fun r hr => hP r (List.mem_cons_of_mem p hr))
                  (fun r hr => hEo r (List.mem_cons_of_mem p hr)) hnd'
                  ?_ (fun r hr => hcol r (List.mem_cons_of_mem p hr)) hg1 ho1 hok.2
                intro r hr
                rw [inSeq_color]
                exact hinv r (List.mem_cons_of_mem p hr)

theorem pActs_guide (t : Tbl) (E P : List Nat) (c : Int) :
    ∀ (zs : List (Nat × List Nat)) (s : Tbl), GuideAgree t s E →
      (∀ qm ∈ zs, qm.1 ∈ E) → pOk t P c s zs = true →
      GuideAgree t (pActs t c zs s) E := by
  intro zs
  induction zs with
  | nil => intro s hg _ _; exact hg
  | cons a rest ih =>
      intro s hg hqE hok
      obtain ⟨q, ms⟩ := a
      simp only [pOk] at hok
      simp only [pActs]
      by_cases hcc : t.color q = c
      · rw [if_pos hcc] at hok ⊢
        exact ih (pMark s q)
          (pMark_guide t s E q (hqE (q, ms) (List.mem_cons_self _ rest)) hg)
          (fun qm hqm => hqE qm (List.mem_cons_of_mem _ hqm)) hok
      · rw [if_neg hcc] at hok ⊢
        rw [Bool.and_eq_true] at hok
        exact ih (outSeq s (filtC t ms))
          (outSeq_guide t E P (filtC t ms) s hg hok.1)
          (fun qm hqm => hqE qm (List.mem_cons_of_mem _ hqm)) hok.2

theorem pActs_orbit (t : Tbl) (E P : List Nat) (c : Int) :
    ∀ (zs : List (Nat × List Nat)) (s : Tbl), OrbitAgree t s P →
      pOk t P c s zs = true → OrbitAgree t (pActs t c zs s) P := by
  intro zs
  induction zs with
  | nil => intro s ho _; exact ho
  | cons a rest ih =>
      intro s ho hok
      obtain ⟨q, ms⟩ := a
      simp only [pOk] at hok
      simp only [pActs]
      by_cases hcc : t.color q = c
      · rw [if_pos hcc] at hok ⊢
        exact ih (pMark s q) (pMark_orbit t s P q ho) hok
      · rw [if_neg hcc] at hok ⊢
        rw [Bool.and_eq_true] at hok
        exact ih (outSeq s (filtC t ms))
          (outSeq_orbit t E P (filtC t ms) s ho hok.1) hok.2

/-- The table state right after purify's first write: the header of p's
item takes p's color. -/
def cTbl (t : Tbl) (p : Nat) : Tbl :=
  { t with color := updf t.color ((t.top p).toNat) (t.color p) }

/-- purify(p) followed by unpurify(p) with minimax off restores every
working array except the color scratch cell of p's item header, which
keeps p's color, provided p lies outside its item's current vertical
list, that list is option-coherent, and its members carry nonnegative
colors. -/
theorem purify_unpurify_eq (t : Tbl) (p fl : Nat) (os : List Nat)
    (mss : List (List Nat))
    (hpn : t.n < p) (hin : (t.top p).toNat ≤ t.n)
    (hpos : p ∉ os) (hnd : os.Nodup)
    (hv : vWalkDAux (cTbl t p) ((t.top p).toNat) fl
      (t.dlink ((t.top p).toNat)) = some os)
    (hu : vWalkUAux (cTbl t p) ((t.top p).toNat) fl
      (t.ulink ((t.top p).toNat)) = some os.reverse)
    (hws : List.Forall₂ (fun r ms => hWalkAux (cTbl t p) r fl (r + 1) = some ms)
      os mss)
    (hds : List.Forall₂
      (fun r ms => dWalkAux (cTbl t p) r fl (r - 1) = some ms.reverse) os mss)
    (hmE : ∀ ms ∈ mss, ∀ r ∈ ms, r ∉ (t.top p).toNat :: os)
    (hcol : ∀ r ∈ os, 0 ≤ (cTbl t p).color r)
    (hok : pOk (cTbl t p) ((t.top p).toNat :: os) (t.color p) (cTbl t p)
      (os.zip mss) = true)
    (hvalid : pValid (cTbl t p) (t.color p) (cTbl t p) (os.zip mss) = true)
    (huok : uOk (cTbl t p) ((t.top p).toNat :: os.reverse) (t.color p)
      (pActs (cTbl t p) (t.color p) (os.zip mss) (cTbl t p))
      ((os.reverse).zip ((mss.map List.reverse).reverse)) = true)
    (hAinv : ∀ r ∈ os,
      ((cTbl t p).color r = t.color p →
        (pActs (cTbl t p) (t.color p) (os.zip mss) (cTbl t p)).color r < 0) ∧
      ((cTbl t p).color r ≠ t.color p →
        (pActs (cTbl t p) (t.color p) (os.zip mss) (cTbl t p)).color r =
          (cTbl t p).color r)) :
    (purify fl t p).bind (fun s => unpurify fl false s p) = some (cTbl t p) := by
  have hip : (t.top p).toNat ≠ p := by omega
  have hpE : p ∉ (t.top p).toNat :: os := by
    intro h
    rcases List.mem_cons.mp h with h | h
    · exact hip h.symm
    · exact hpos h
  have h1 : purify fl t p = purifyAux fl (t.color p) ((t.top p).toNat) fl
      (cTbl t p) (t.dlink ((t.top p).toNat)) := rfl
  have hpur : purify fl t p =
      some (pActs (cTbl t p) (t.color p) (os.zip mss) (cTbl t p)) := by
    rw [h1]
    exact purifyAux_pActs (cTbl t p) ((t.top p).toNat :: os)
      ((t.top p).toNat :: os) (t.color p) ((t.top p).toNat) fl fl
      (t.dlink ((t.top p).toNat)) os mss (cTbl t p) hv hws hmE
      (fun r hr => List.mem_cons_of_mem _ hr)
      (fun r hr => List.mem_cons_of_mem _ hr) hnd (fun r _ => rfl)
      (guideAgree_refl _ _) (orbitAgree_refl _ _) hok
  rw [hpur, Option.some_bind]
  have hgA : GuideAgree (cTbl t p)
      (pActs (cTbl t p) (t.color p) (os.zip mss) (cTbl t p))
      ((t.top p).toNat :: os) :=
    pActs_guide (cTbl t p) ((t.top p).toNat :: os) ((t.top p).toNat :: os)
      (t.color p) (os.zip mss) (cTbl t p) (guideAgree_refl _ _)
      (by
        intro qm hqm
        have := List.of_mem_zip hqm
        exact List.mem_cons_of_mem _ this.1) hok
  have hoA : OrbitAgree (cTbl t p)
      (pActs (cTbl t p) (t.color p) (os.zip mss) (cTbl t p))
      ((t.top p).toNat :: os) :=
    pActs_orbit (cTbl t p) ((t.top p).toNat :: os) ((t.top p).toNat :: os)
      (t.color p) (os.zip mss) (cTbl t p) (orbitAgree_refl _ _) hok
  have hcA : (pActs (cTbl t p) (t.color p) (os.zip mss) (cTbl t p)).color p =
      t.color p := by
    have h := hgA.2.2.2 p hpE
    rw [h]
    show updf t.color ((t.top p).toNat) (t.color p) p = t.color p
    rw [updf_ne _ _ _ _ (fun he => hip he.symm)]
  have htA : (pActs (cTbl t p) (t.color p) (os.zip mss) (cTbl t p)).top p =
      t.top p := hgA.2.1 p hpn
  have hulA : (pActs (cTbl t p) (t.color p) (os.zip mss) (cTbl t p)).ulink
      ((t.top p).toNat) = t.ulink ((t.top p).toNat) :=
    (hoA ((t.top p).toNat) (List.mem_cons_self _ os)).1
  have h2 : unpurify fl false
      (pActs (cTbl t p) (t.color p) (os.zip mss) (cTbl t p)) p =
      unpurifyAux fl false
        ((pActs (cTbl t p) (t.color p) (os.zip mss) (cTbl t p)).color p)
        (((pActs (cTbl t p) (t.color p) (os.zip mss) (cTbl t p)).top p).toNat)
        fl (pActs (cTbl t p) (t.color p) (os.zip mss) (cTbl t p))
        ((pActs (cTbl t p) (t.color p) (os.zip mss) (cTbl t p)).ulink
          (((pActs (cTbl t p) (t.color p) (os.zip mss) (cTbl t p)).top
            p).toNat)) := rfl
  rw [h2, hcA, htA, hulA]
  have hlen : os.length = mss.length := List.Forall₂.length_eq hws
  have hws' : List.Forall₂
      (fun r ms => dWalkAux (cTbl t p) r fl (r - 1) = some ms)
      os.reverse ((mss.map List.reverse).reverse) :=
    forall2_rev (List.forall₂_map_right_iff.mpr hds)
  have hres := unpurifyAux_uActs (cTbl t p) ((t.top p).toNat :: os)
    ((t.top p).toNat :: os.reverse) (t.color p) ((t.top p).toNat) fl fl
    (t.ulink ((t.top p).toNat)) os.reverse ((mss.map List.reverse).reverse)
    (pActs (cTbl t p) (t.color p) (os.zip mss) (cTbl t p)) hu hws'
    (by
      intro ms hms r hr
      rw [List.mem_reverse, List.mem_map] at hms
      obtain ⟨ms0, hms0, hrev⟩ := hms
      apply hmE ms0 hms0 r
      rw [← hrev] at hr
      exact List.mem_reverse.mp hr)
    (fun r hr => List.mem_cons_of_mem _ hr)
    (by
      intro r hr
      rw [List.mem_reverse] at hr
      exact List.mem_cons_of_mem _ hr)
    (List.nodup_reverse.mpr hnd)
    (by
      intro r hr
      rw [List.mem_reverse] at hr
      exact hAinv r hr)
    (by
      intro r hr
      rw [List.mem_reverse] at hr
      exact hcol r hr)
    hgA
    (by
      intro j hj
      apply hoA j
      rcases List.mem_cons.mp hj with h | h
      · rw [h]; exact List.mem_cons_self _ _
      · exact List.mem_cons_of_mem _ (List.mem_reverse.mp h))
    huok
  rw [hres]
  rw [show (os.reverse).zip ((mss.map List.reverse).reverse) =
    revZ (os.zip mss) from (revZ_zip os mss hlen).symm]
  rw [uActs_pActs (cTbl t p) (t.color p) (os.zip mss) (cTbl t p) hvalid]

/-- The toy table after covering item p, a driver-reachable state in which
node 10 (the y:A node of the first option) is outside its item's list. -/
def c6T : Tbl := (cover 30 toyT0 1).getD toyT0

/-- C6 (amended): purify(p) followed immediately by unpurify(p), with
minimax off, restores every working array except the color scratch cell
of p's item header, which keeps p's color; exact restoration of the
absorbed markers holds provided p lies outside its item's current
vertical list (as at the engine's call sites), the list is
option-coherent, and its members carry nonnegative colors. -/
theorem C6_roundtrip_restores_except_header (t : Tbl) (p fl : Nat)
    (os : List Nat) (mss : List (List Nat))
    (hpn : t.n < p) (hin : (t.top p).toNat ≤ t.n)
    (hpos : p ∉ os) (hnd : os.Nodup)
    (hv : vWalkDAux (cTbl t p) ((t.top p).toNat) fl
      (t.dlink ((t.top p).toNat)) = some os)
    (hu : vWalkUAux (cTbl t p) ((t.top p).toNat) fl
      (t.ulink ((t.top p).toNat)) = some os.reverse)
    (hws : List.Forall₂ (fun r ms => hWalkAux (cTbl t p) r fl (r + 1) = some ms)
      os mss)
    (hds : List.Forall₂
      (fun r ms => dWalkAux (cTbl t p) r fl (r - 1) = some ms.reverse) os mss)
    (hmE : ∀ ms ∈ mss, ∀ r ∈ ms, r ∉ (t.top p).toNat :: os)
    (hcol : ∀ r ∈ os, 0 ≤ (cTbl t p).color r)
    (hok : pOk (cTbl t p) ((t.top p).toNat :: os) (t.color p) (cTbl t p)
      (os.zip mss) = true)
    (hvalid : pValid (cTbl t p) (t.color p) (cTbl t p) (os.zip mss) = true)
    (huok : uOk (cTbl t p) ((t.top p).toNat :: os.reverse) (t.color p)
      (pActs (cTbl t p) (t.color p) (os.zip mss) (cTbl t p))
      ((os.reverse).zip ((mss.map List.reverse).reverse)) = true)
    (hAinv : ∀ r ∈ os,
      ((cTbl t p).color r = t.color p →
        (pActs (cTbl t p) (t.color p) (os.zip mss) (cTbl t p)).color r < 0) ∧
      ((cTbl t p).color r ≠ t.color p →
        (pActs (cTbl t p) (t.color p) (os.zip mss) (cTbl t p)).color r =
          (cTbl t p).color r)) :
    (purify fl t p).bind (fun s => unpurify fl false s p) = some (cTbl t p) :=
  purify_unpurify_eq t p fl os mss hpn hin hpos hnd hv hu hws hds hmE hcol
    hok hvalid huok hAinv

theorem C6_roundtrip_restores_except_header_witness :
    (purify 30 c6T 10).bind (fun s => unpurify 30 false s 10) =
      some (cTbl c6T 10) :=
  C6_roundtrip_restores_except_header c6T 10 30 [24] [[23]]
    (by decide) (by decide) (by decide) (by decide)
    (by rfl) (by rfl)
    (List.Forall₂.cons (by rfl) List.Forall₂.nil)
    (List.Forall₂.cons (by rfl) List.Forall₂.nil)
    (by decide) (by decide)
    (by rfl) (by rfl) (by rfl)
    (by decide)

/-! ## C3: the minimax cutoff machinery of lvisit -/

theorem outSeq_cutoff : ∀ (ms : List Nat) (s : Tbl),
    (outSeq s ms).cutoff = s.cutoff := by
  intro ms
  induction ms with
  | nil => intro s; rfl
  | cons q qs ih => intro s; exact ih (spliceOut s q)

/-- Walking up from inside an option stops at the trailing spacer. -/
theorem ppWalk_up (t : Tbl) (b : Nat) :
    ∀ (f pMax : Nat), pMax ≤ b + 1 →
      (∀ j, pMax ≤ j → j ≤ b → 0 < t.top j) →
      t.top (b + 1) ≤ 0 → b + 2 - pMax ≤ f →
      ppWalk t false f pMax = some (b + 1) := by
  intro f
  induction f with
  | zero => intro pMax h1 _ _ hf; omega
  | succ f ih =>
      intro pMax h1 hopt hsp hf
      by_cases he : pMax = b + 1
      · subst he
        simp only [ppWalk]
        rw [if_neg (by omega)]
      · have hlt : pMax ≤ b := by omega
        simp only [ppWalk]
        rw [if_pos (hopt pMax le_rfl hlt), if_neg (by simp)]
        exact ih (pMax + 1) (by omega)
          (fun j hj1 hj2 => hopt j (by omega) hj2) hsp (by omega)

/-- Walking down from inside an option stops at the leading spacer. -/
theorem ppWalk_dn (t : Tbl) (a : Nat) (ha : 1 ≤ a) :
    ∀ (f pMax : Nat), a - 1 ≤ pMax →
      (∀ j, a ≤ j → j ≤ pMax → 0 < t.top j) →
      t.top (a - 1) ≤ 0 → pMax + 2 - a ≤ f →
      ppWalk t true f pMax = some (a - 1) := by
  intro f
  induction f with
  | zero => intro pMax h1 _ _ hf; omega
  | succ f ih =>
      intro pMax h1 hopt hsp hf
      by_cases he : pMax = a - 1
      · subst he
        simp only [ppWalk]
        rw [if_neg (by omega)]
      · have hlt : a ≤ pMax := by omega
        simp only [ppWalk]
        rw [if_pos (hopt pMax hlt le_rfl)]
        simp only [if_true]
        exact ih (pMax - 1) (by omega)
          (fun j hj1 hj2 => hopt j hj1 (by omega)) hsp (by omega)

/-- Splice-out sequences decrement each header's llen once per spliced
node of that item. -/
theorem outSeq_top_sub (t : Tbl) : ∀ (ms : List Nat) (s : Tbl) (x : Nat),
    x ≤ t.n →
    (∀ q ∈ ms, t.n < q ∧ s.top q = t.top q ∧ (t.top q).toNat ≤ t.n) →
    (outSeq s ms).top x =
      s.top x -
        ((ms.filter (fun r => decide ((t.top r).toNat = x))).length : Int) := by
  intro ms
  induction ms with
  | nil => intro s x _ _; simp [outSeq]
  | cons q qs ih =>
      intro s x hx hq
      obtain ⟨hqn, hqt, hqle⟩ := hq q (List.mem_cons_self q qs)
      have hrest : ∀ r ∈ qs, t.n < r ∧ (spliceOut s q).top r = t.top r ∧
          (t.top r).toNat ≤ t.n := by
        intro r hr
        obtain ⟨h1, h2, h3⟩ := hq r (List.mem_cons_of_mem q hr)
        refine ⟨h1, ?_, h3⟩
        show updf s.top ((s.top q).toNat) (s.top ((s.top q).toNat) - 1) r = t.top r
        rw [updf_ne _ _ _ _ (by rw [hqt]; omega)]
        exact h2
      show (outSeq (spliceOut s q) qs).top x = _
      rw [ih (spliceOut s q) x hx hrest]
      have hsp : (spliceOut s q).top x =
          s.top x - (if (t.top q).toNat = x then 1 else 0) := by
        show updf s.top ((s.top q).toNat) (s.top ((s.top q).toNat) - 1) x = _
        rw [hqt]
        by_cases hxx : (t.top q).toNat = x
        · rw [if_pos hxx, hxx, updf_same]
        · rw [if_neg hxx, sub_zero, updf_ne _ _ _ _ (fun he => hxx he.symm)]
      rw [hsp]
      simp only [List.filter_cons]
      by_cases hxx : (t.top q).toNat = x
      · rw [if_pos hxx, if_pos (by simp only [decide_eq_true_eq]; exact hxx)]
        simp only [List.length_cons]
        push_cast
        ring
      · rw [if_neg hxx, if_neg (by simp only [decide_eq_true_eq]; exact hxx)]
        simp only [sub_zero]

/-- Cell conditions for one pruning splice: the llen write stays in the
header region, the neighbor writes stay clear of spacer cells, of the
protected later chains P, and (for the upper neighbor) of the remaining
positions of the chain being walked. -/
def goodPr (t : Tbl) (P rest : List Nat) (s : Tbl) (q : Nat) : Bool :=
  decide ((s.top q).toNat ≤ t.n) &&
  nonSpacerB t (s.ulink q) && nonSpacerB t (s.dlink q) &&
  !(decide (s.ulink q ∈ P)) && !(decide (s.dlink q ∈ P)) &&
  !(decide (s.ulink q ∈ rest))

/-- Every splice of one pruning walk is well-placed at its moment. -/
def prOk (t : Tbl) (P : List Nat) : Tbl → List Nat → Bool
  | _, [] => true
  | s, q :: qs =>
      if t.cutoff < q then goodPr t P qs s q && prOk t P (spliceOut s q) qs
      else prOk t P s qs

theorem goodPr_unpack (t : Tbl) (P rest : List Nat) (s : Tbl) (q : Nat)
    (h : goodPr t P rest s q = true) :
    (s.top q).toNat ≤ t.n ∧
    (s.ulink q ≤ t.n ∨ 0 < t.top (s.ulink q)) ∧
    (s.dlink q ≤ t.n ∨ 0 < t.top (s.dlink q)) ∧
    s.ulink q ∉ P ∧ s.dlink q ∉ P ∧ s.ulink q ∉ rest := by
  simp only [goodPr, nonSpacerB, Bool.and_eq_true, Bool.or_eq_true,
    decide_eq_true_eq, Bool.not_eq_true', decide_eq_false_iff_not] at h
  exact ⟨h.1.1.1.1.1, h.1.1.1.1.2, h.1.1.1.2, h.1.1.2, h.1.2, h.2⟩

/-- One pruning walk performs exactly the splice-outs of the chain's
members past the cutoff. -/
theorem pruneOne_outSeq (t : Tbl) (E P : List Nat) (x : Nat) :
    ∀ (f : Nat) (q : Nat) (qs : List Nat) (s : Tbl),
      vWalkDAux t x f q = some qs →
      (∀ r ∈ qs, (t.top r).toNat = x) →
      (∀ r ∈ qs, s.dlink r = t.dlink r) →
      GuideAgree t s E →
      s.cutoff = t.cutoff →
      prOk t P s qs = true →
      pruneOne x f s q =
        some (outSeq s (qs.filter (fun r => decide (t.cutoff < r)))) := by
  intro f
  induction f with
  | zero => intro q qs s hv _ _ _ _ _; simp [vWalkDAux] at hv
  | succ f ih =>
      intro q qs s hv htop hdla hg hcut hok
      simp only [vWalkDAux] at hv
      by_cases hqx : q = x
      · rw [if_pos hqx] at hv
        injection hv with hv
        subst hv
        simp only [pruneOne, if_pos hqx]
        rfl
      · rw [if_neg hqx] at hv
        by_cases hqn : q ≤ t.n
        · rw [if_pos hqn] at hv
          exact absurd hv (by simp)
        · rw [if_neg hqn] at hv
          rw [Option.map_eq_some'] at hv
          obtain ⟨qs', hqs', hcons⟩ := hv
          subst hcons
          have hq : t.n < q := Nat.lt_of_not_le hqn
          have hstq : s.top q = t.top q := hg.2.1 q hq
          have hdq : s.dlink q = t.dlink q := hdla q (List.mem_cons_self q qs')
          simp only [prOk] at hok
          simp only [List.filter_cons]
          simp only [pruneOne, if_neg hqx]
          by_cases hc : t.cutoff < q
          · rw [if_pos hc] at hok
            rw [if_pos (show s.cutoff < q by rw [hcut]; exact hc)]
            rw [if_pos (by simp only [decide_eq_true_eq]; exact hc)]
            rw [Bool.and_eq_true] at hok
            obtain ⟨hxe, hu, hd, huP, hdP, hur⟩ :=
              goodPr_unpack t P qs' s q hok.1
            have hxx : (s.top q).toNat = x := by
              rw [hstq]
              exact htop q (List.mem_cons_self q qs')
            have hrec : ({ s with
                dlink := updf s.dlink (s.ulink q) (s.dlink q),
                ulink := updf s.ulink (s.dlink q) (s.ulink q),
                top := updf s.top x (s.top x - 1) } : Tbl) = spliceOut s q := by
              rw [← hxx]
              rfl
            rw [hrec]
            have hadv : (spliceOut s q).dlink q = t.dlink q := by
              rw [spliceOut_dlink_self]
              exact hdq
            rw [hadv]
            refine ih (t.dlink q) qs' (spliceOut s q) hqs'
              (fun r hr => htop r (List.mem_cons_of_mem q hr)) ?_ ?_ hcut hok.2
            · intro r hr
              show updf s.dlink (s.ulink q) (s.dlink q) r = t.dlink r
              rw [updf_ne _ _ _ _ (fun he => hur (by rw [← he]; exact hr))]
              exact hdla r (List.mem_cons_of_mem q hr)
            · exact guide_of_upd t s E _ _ _ _ _ _ hg hxe hu hd
          · rw [if_neg hc] at hok
            rw [if_neg (show ¬ s.cutoff < q by rw [hcut]; exact hc)]
            rw [if_neg (by simp only [decide_eq_true_eq]; exact hc)]
            rw [hdq]
            exact ih (t.dlink q) qs' s hqs'
              (fun r hr => htop r (List.mem_cons_of_mem q hr))
              (fun r hr => hdla r (List.mem_cons_of_mem q hr)) hg hcut hok

theorem prSeq_guide (t : Tbl) (E P : List Nat) :
    ∀ (qs : List Nat) (s : Tbl), GuideAgree t s E → prOk t P s qs = true →
      GuideAgree t (outSeq s (qs.filter (fun r => decide (t.cutoff < r)))) E := by
  intro qs
  induction qs with
  | nil => intro s hg _; exact hg
  | cons q qs' ih =>
      intro s hg hok
      simp only [prOk] at hok
      simp only [List.filter_cons]
      by_cases hc : t.cutoff < q
      · rw [if_pos hc] at hok
        rw [if_pos (by simp only [decide_eq_true_eq]; exact hc)]
        rw [Bool.and_eq_true] at hok
        obtain ⟨hxe, hu, hd, _, _, _⟩ := goodPr_unpack t P qs' s q hok.1
        exact ih (spliceOut s q) (guide_of_upd t s E _ _ _ _ _ _ hg hxe hu hd)
          hok.2
      · rw [if_neg hc] at hok
        rw [if_neg (by simp only [decide_eq_true_eq]; exact hc)]
        exact ih s hg hok

theorem prSeq_orbit (t : Tbl) (E P : List Nat) :
    ∀ (qs : List Nat) (s : Tbl), OrbitAgree t s P → prOk t P s qs = true →
      OrbitAgree t (outSeq s (qs.filter (fun r => decide (t.cutoff < r)))) P := by
  intro qs
  induction qs with
  | nil => intro s ho _; exact ho
  | cons q qs' ih =>
      intro s ho hok
      simp only [prOk] at hok
      simp only [List.filter_cons]
      by_cases hc : t.cutoff < q
      · rw [if_pos hc] at hok
        rw [if_pos (by simp only [decide_eq_true_eq]; exact hc)]
        rw [Bool.and_eq_true] at hok
        obtain ⟨_, _, _, huP, hdP, _⟩ := goodPr_unpack t P qs' s q hok.1
        exact ih (spliceOut s q) (orbit_of_upd t s P _ _ _ _ _ _ ho huP hdP)
          hok.2
      · rw [if_neg hc] at hok
        rw [if_neg (by simp only [decide_eq_true_eq]; exact hc)]
        exact ih s ho hok

/-- Validity of the whole stack pruning pass, protecting at each step the
chains of the stack entries not yet processed. -/
def paOk (t : Tbl) : Tbl → List (Nat × List Nat) → Bool
  | _, [] => true
  | s, (_, qs) :: rest =>
      prOk t ((rest.map Prod.snd).flatten) s qs &&
      paOk t (outSeq s (qs.filter (fun r => decide (t.cutoff < r)))) rest

/-- The pruning pass over the stack performs exactly the splice-outs of
every chain member past the cutoff, chain by chain. -/
theorem pruneAll_eq (t : Tbl) (E : List Nat) (fl : Nat) :
    ∀ (zs : List (Nat × List Nat)) (s : Tbl),
      (∀ pq ∈ zs, vWalkDAux t ((t.top pq.1).toNat) fl pq.1 = some pq.2 ∧
        t.n < pq.1 ∧ (∀ r ∈ pq.2, (t.top r).toNat = (t.top pq.1).toNat)) →
      GuideAgree t s E →
      OrbitAgree t s ((zs.map Prod.snd).flatten) →
      s.cutoff = t.cutoff →
      paOk t s zs = true →
      pruneAll fl (zs.map Prod.fst) s =
        some (outSeq s (((zs.map Prod.snd).map
          (fun qs => qs.filter (fun r => decide (t.cutoff < r)))).flatten)) := by
  intro zs
  induction zs with
  | nil => intro s _ _ _ _ _; rfl
  | cons pq rest ih =>
      intro s hw hg ho hcut hok
      obtain ⟨p, qs⟩ := pq
      obtain ⟨hv, hpn, htop⟩ := hw (p, qs) (List.mem_cons_self _ rest)
      simp only [paOk, Bool.and_eq_true] at hok
      have hstp : (s.top p).toNat = (t.top p).toNat := by
        rw [hg.2.1 p hpn]
      have hpr : pruneOne ((s.top p).toNat) fl s p =
          some (outSeq s (qs.filter (fun r => decide (t.cutoff < r)))) := by
        rw [hstp]
        exact pruneOne_outSeq t E ((rest.map Prod.snd).flatten)
          ((t.top p).toNat) fl p qs s hv htop
          (fun r hr => (ho r (by
            simp only [List.map_cons, List.flatten_cons, List.mem_append]
            exact Or.inl hr)).2) hg hcut hok.1
      simp only [List.map_cons, List.flatten_cons, pruneAll,
        Option.bind_eq_bind]
      rw [hpr, Option.some_bind]
      have hg1 : GuideAgree t
          (outSeq s (qs.filter (fun r => decide (t.cutoff < r)))) E :=
        prSeq_guide t E ((rest.map Prod.snd).flatten) qs s hg hok.1
      have ho1 : OrbitAgree t
          (outSeq s (qs.filter (fun r => decide (t.cutoff < r))))
          ((rest.map Prod.snd).flatten) :=
        prSeq_orbit t E ((rest.map Prod.snd).flatten) qs s
          (fun j hj => ho j (by
            simp only [List.map_cons, List.flatten_cons, List.mem_append]
            exact Or.inr hj)) hok.1
      rw [outSeq_append]
      exact ih (outSeq s (qs.filter (fun r => decide (t.cutoff < r))))
        (fun pq hpq => hw pq (List.mem_cons_of_mem _ hpq)) hg1 ho1
        (by rw [outSeq_cutoff]; exact hcut) hok.2

theorem vWalkD_mem_gt (t : Tbl) (x : Nat) :
    ∀ (f q : Nat) (qs : List Nat), vWalkDAux t x f q = some qs →
      ∀ r ∈ qs, t.n < r := by
  intro f
  induction f with
  | zero => intro q qs h; simp [vWalkDAux] at h
  | succ f ih =>
      intro q qs h r hr
      simp only [vWalkDAux] at h
      by_cases hqx : q = x
      · rw [if_pos hqx] at h
        injection h with h
        subst h
        simp at hr
      · rw [if_neg hqx] at h
        by_cases hqn : q ≤ t.n
        · rw [if_pos hqn] at h
          exact absurd h (by simp)
        · rw [if_neg hqn] at h
          rw [Option.map_eq_some'] at h
          obtain ⟨qs', hqs', hc⟩ := h
          subst hc
          rcases List.mem_cons.mp hr with h | h
          · subst h
            omega
          · exact ih (t.dlink q) qs' hqs' r h

/-- C3: under minimax, at a visited solution the candidate cutoff is the
spacer adjacent to the maximum chosen option — trailing when
minimax-single is off, leading when it is on; given that the candidate
does not exceed the current cutoff, the cutoff is updated exactly when
the candidate is strictly smaller, and the update prunes from the stack
options' vertical chains precisely the nodes past the new cutoff,
decrementing the owning item's llen once per removed node. -/
theorem C3_minimax_cutoff_update (fuel : Nat) (t : Tbl)
    (pMax lMax a b : Nat) (e83 : Bool) (zs : List (Nat × List Nat))
    (ha1 : 1 ≤ a) (hab : a ≤ pMax) (hpb : pMax ≤ b)
    (hopt : ∀ j, a ≤ j → j ≤ b → 0 < t.top j)
    (hsa : t.top (a - 1) ≤ 0) (hsb : t.top (b + 1) ≤ 0)
    (hfu : b + 2 - pMax ≤ fuel) (hfd : pMax + 2 - a ≤ fuel)
    (hst : t.state.take t.level = zs.map Prod.fst)
    (hw : ∀ pq ∈ zs,
      vWalkDAux { t with cutoff := b + 1 } ((t.top pq.1).toNat) fuel pq.1 =
        some pq.2 ∧
      t.n < pq.1 ∧ (t.top pq.1).toNat ≤ t.n ∧
      (∀ r ∈ pq.2, (t.top r).toNat = (t.top pq.1).toNat))
    (hok : paOk { t with cutoff := b + 1 } { t with cutoff := b + 1 } zs = true)
    (hle : b + 1 ≤ t.cutoff) :
    ppWalk t false fuel pMax = some (b + 1) ∧
    ppWalk t true fuel pMax = some (a - 1) ∧
    lvisitCut fuel ⟨true, false, e83⟩ t pMax lMax =
      (if b + 1 < t.cutoff
       then some (outSeq { t with cutoff := b + 1 }
         (((zs.map Prod.snd).map
           (fun qs => qs.filter (fun r => decide (b + 1 < r)))).flatten))
       else some t) ∧
    (∀ x, x ≤ t.n →
      (outSeq { t with cutoff := b + 1 }
        (((zs.map Prod.snd).map
          (fun qs => qs.filter (fun r => decide (b + 1 < r)))).flatten)).top x =
      t.top x - (((((zs.map Prod.snd).map
          (fun qs => qs.filter (fun r => decide (b + 1 < r)))).flatten).filter
            (fun r => decide ((t.top r).toNat = x))).length : Int)) := by
  have hpp1 : ppWalk t false fuel pMax = some (b + 1) :=
    ppWalk_up t b fuel pMax (by omega)
      (fun j h1 h2 => hopt j (by omega) h2) hsb hfu
  have hpp2 : ppWalk t true fuel pMax = some (a - 1) :=
    ppWalk_dn t a ha1 fuel pMax (by omega)
      (fun j h1 h2 => hopt j h1 (by omega)) hsa hfd
  have hmem : ∀ q ∈ (((zs.map Prod.snd).map
      (fun qs => qs.filter (fun r => decide (b + 1 < r)))).flatten),
      ∃ pq ∈ zs, q ∈ pq.2 := by
    intro q hq
    rw [List.mem_flatten] at hq
    obtain ⟨l, hl, hql⟩ := hq
    rw [List.mem_map] at hl
    obtain ⟨qs0, hqs0, hfil⟩ := hl
    rw [List.mem_map] at hqs0
    obtain ⟨pq, hpq, hsnd⟩ := hqs0
    refine ⟨pq, hpq, ?_⟩
    rw [← hfil] at hql
    rw [← hsnd] at hql
    exact (List.mem_filter.mp hql).1
  refine ⟨hpp1, hpp2, ?_, ?_⟩
  · rw [show lvisitCut fuel ⟨true, false, e83⟩ t pMax lMax =
        (ppWalk t false fuel pMax).bind (fun pp =>
          if pp ≠ t.cutoff then
            (pruneAll fuel (t.state.take t.level) { t with cutoff := pp }).bind
              (fun t2 => some t2)
          else some t) from rfl]
    rw [hpp1, Option.some_bind]
    by_cases hlt : b + 1 < t.cutoff
    · rw [if_pos (by omega : b + 1 ≠ t.cutoff), if_pos hlt, hst]
      rw [pruneAll_eq { t with cutoff := b + 1 } [] fuel zs
        { t with cutoff := b + 1 }
        (fun pq hpq => ⟨(hw pq hpq).1, (hw pq hpq).2.1, (hw pq hpq).2.2.2⟩)
        (guideAgree_refl _ _) (orbitAgree_refl _ _) rfl hok]
      rfl
    · rw [if_neg hlt,
        if_neg (show ¬ b + 1 ≠ t.cutoff from fun h => h (by omega))]
  · intro x hx
    have hms : ∀ q ∈ (((zs.map Prod.snd).map
        (fun qs => qs.filter (fun r => decide (b + 1 < r)))).flatten),
        ({ t with cutoff := b + 1 } : Tbl).n < q ∧
        ({ t with cutoff := b + 1 } : Tbl).top q =
          ({ t with cutoff := b + 1 } : Tbl).top q ∧
        (({ t with cutoff := b + 1 } : Tbl).top q).toNat ≤
          ({ t with cutoff := b + 1 } : Tbl).n := by
      intro q hq
      obtain ⟨pq, hpq, hqm⟩ := hmem q hq
      obtain ⟨hv, hpn, hxle, htop⟩ := hw pq hpq
      refine ⟨vWalkD_mem_gt _ _ fuel pq.1 pq.2 hv q hqm, rfl, ?_⟩
      show (t.top q).toNat ≤ t.n
      rw [htop q hqm]
      exact hxle
    exact outSeq_top_sub { t with cutoff := b + 1 } _
      { t with cutoff := b + 1 } x hx hms

set_option maxRecDepth 1000000

/-- The reachable table of the minimax test case right at the first
solution visit (driver at C2 with all primaries covered). -/
def c3T : Tbl := ((stepN 400 cfgMM visTrue 4 bigM0).map Mach.t).getD toyT0

theorem C3_minimax_cutoff_update_witness :
    lvisitCut 50 ⟨true, false, false⟩ c3T 35 1 =
      (if 37 + 1 < c3T.cutoff
       then some (outSeq { c3T with cutoff := 37 + 1 }
         ((([(9, [9, 21, 25]), (35, [35, 46])].map Prod.snd).map
           (fun qs => qs.filter (fun r => decide (37 + 1 < r)))).flatten))
       else some c3T) :=
  (C3_minimax_cutoff_update 50 c3T 35 1 35 37 false
    [(9, [9, 21, 25]), (35, [35, 46])]
    (by decide) (by decide) (by decide)
    (by
      intro j h1 h2
      have hj : j = 35 ∨ j = 36 ∨ j = 37 := by omega
      rcases hj with hj | hj | hj <;> (subst hj; decide))
    (by decide) (by decide) (by decide) (by decide) (by decide)
    (by decide) (by decide) (by decide)).2.2.1

set_option maxHeartbeats 4000000

/-- The final machine of the completed toy run with minimax off. -/
def c2Final : Mach := ((runM 300 cfg0 visTrue 300 toyM0).map Prod.fst).getD toyM0

/-- C2 (amended): the toy search with minimax off runs to completion, and
the final working arrays equal their post-build values everywhere in the
table except the color scratch cells of the item headers (indices 1..n),
which keep the last committed colors. -/
theorem C2_toy_restored_mod_header_colors :
    (runM 300 cfg0 visTrue 300 toyM0).map Prod.snd = some Outcome.done ∧
    (List.range toyT0.size).map c2Final.t.llink =
      (List.range toyT0.size).map toyT0.llink ∧
    (List.range toyT0.size).map c2Final.t.rlink =
      (List.range toyT0.size).map toyT0.rlink ∧
    (List.range toyT0.size).map c2Final.t.top =
      (List.range toyT0.size).map toyT0.top ∧
    (List.range toyT0.size).map c2Final.t.ulink =
      (List.range toyT0.size).map toyT0.ulink ∧
    (List.range toyT0.size).map c2Final.t.dlink =
      (List.range toyT0.size).map toyT0.dlink ∧
    c2Final.t.color 0 = toyT0.color 0 ∧
    ((List.range toyT0.size).drop (toyT0.n + 1)).map c2Final.t.color =
      ((List.range toyT0.size).drop (toyT0.n + 1)).map toyT0.color :=
  ⟨rfl, rfl, rfl, rfl, rfl, rfl, rfl, rfl⟩
